import Mathlib

/-!
# JsonParser: a verification development

A shallow embedding of the recursive-descent JSON parser of `JsonParser.h`, of the
value classes (`JsonValue.h`, `JsonObject.h`, `JsonArray.h`, ...) and of the printer
`printValue` of `main.cpp`, followed by theorems about them.

Conventions of the embedding.

* The input `std::string json` is a `List Char`; the cursor `pos` is a `Nat`.  The
  character classes are those of the C locale.
* A `std::unique_ptr<JsonValue>` is an `Option JsonValue`; `nullptr` is `none`.
* A parsing routine returns `Except Fault (result × Nat)`: the returned pointer
  together with the value of `pos` on return, or the way the call failed to return
  (an exception that nothing catches, or an access with undefined behaviour).
* The `float` held by a `JsonNumber` is identified by its bit pattern, a `Nat`.  The
  floating-point conversions of the C++ library are parameters: `conv` (text to
  value, `std::stod` followed by the narrowing to `float`) and `fmt` (value to text,
  `operator<<` on a `float`).
* An object lists the entries of its `unordered_map` in the order in which they are
  iterated; `JsonObject::add` puts a new entry last.
* Recursion between `parseValue`, `parseArray` and `parseObject` is by a fuel counter;
  `parse` supplies `json.length + 2`.
-/

namespace Json

/-! ## The value model -/

/-- The class hierarchy under `JsonValue`, as a closed type.  The constructors are in
the order of `enum JsonType`.  An object lists the entries of its
`unordered_map<string, unique_ptr<JsonValue>>` (the stored pointer may be null); an
array lists the values its element pointers point to (`parseArray` stores no null
pointer). -/
inductive JsonValue where
  | number (value : Nat)
  | string (value : List Char)
  | bool (value : Bool)
  | object (members : List (List Char × Option JsonValue))
  | array (members : List JsonValue)
  | null

/-- The keys of the entries of an object, in the order the entries are listed. -/
def JsonValue.keys (members : List (List Char × Option JsonValue)) : List (List Char) :=
  members.map Prod.fst

/-- The ways a call can fail to return: an exception that nothing catches, or an access whose
behaviour is undefined. -/
inductive Fault where
  /-- The exception `std::invalid_argument`, thrown by `std::stod` when no conversion can be
  performed. -/
  | invalidArgument
  /-- The exception `std::out_of_range`, thrown by `std::stod` (value out of range) or by
  `substr` (start beyond the end). -/
  | outOfRange
  /-- The access `json[index]` with `index > json.size()`: undefined behaviour. -/
  | readPastEnd (index : Nat)
  /-- The fuel of the embedding ran out (not a behaviour of the program). -/
  | outOfFuel
  deriving DecidableEq

/-- What a parsing routine hands back: the pointer it returns and `pos` on return. -/
abbrev Res (α : Type) := Except Fault (α × Nat)

/-! ## JsonObject -/

/-- The method `JsonObject::add`, `members[key] = std::move(value)`: the entry under `key` is
overwritten when there is one, and a new entry is made otherwise. -/
def JsonObject.add (members : List (List Char × Option JsonValue)) (key : List Char)
    (value : Option JsonValue) : List (List Char × Option JsonValue) :=
  match members with
  | [] => [(key, value)]
  | (k, v) :: rest =>
    if k = key then (k, value) :: rest else (k, v) :: JsonObject.add rest key value

/-! ## Character classes and access -/

/-- The function `isspace` of the C locale: space, `\t`, `\n`, `\v`, `\f`, `\r`. -/
def isspace (c : Char) : Bool :=
  c = ' ' || c = '\t' || c = '\n' || c = '\x0b' || c = '\x0c' || c = '\r'

/-- The function `isdigit`: the ten decimal digits. -/
def isdigit (c : Char) : Bool :=
  '0' ≤ c && c ≤ '9'

/-- An access `json[pos]` that no bounds check guards.  `std::string::operator[]` is defined up
to and including `pos == size()`, where it yields the terminating `'\0'`; beyond that
the behaviour is undefined. -/
def charAt (json : List Char) (pos : Nat) : Except Fault Char :=
  match json[pos]? with
  | some c => .ok c
  | none => if pos = json.length then .ok '\x00' else .error (.readPastEnd pos)

/-! ## The parser -/

/-- Number of iterations of the loop of `skipWhitespace` on the remaining input. -/
def spaceRun : List Char → Nat
  | [] => 0
  | c :: cs => if isspace c then spaceRun cs + 1 else 0

/-- The method `JsonParser::skipWhitespace`: `while (pos < json.size() && isspace(json[pos])) pos++`.
Returns the new `pos`. -/
def skipWhitespace (json : List Char) (pos : Nat) : Nat :=
  pos + spaceRun (json.drop pos)

/-- The character an escape sequence contributes (`JsonParser.h` lines 118-122): `n`, `t`,
`"` and `\` are translated, every other character is added as it is. -/
def unescape (c : Char) : Char :=
  if c = 'n' then '\n'
  else if c = 't' then '\t'
  else if c = '"' then '"'
  else if c = '\\' then '\\'
  else c

/-- The loop of `parseString` on the remaining input, `str` being the string built so far.
Returns the final `str` and the number of positions `pos` advanced.  The loop stops at
the end of the input or at a `"`; a backslash that is the last character of the
input is skipped and the loop is left (`break`). -/
def stringLoop : List Char → List Char → List Char × Nat
  | [], str => (str, 0)
  | c :: cs, str =>
    if c = '"' then (str, 0)
    else if c = '\\' then
      match cs with
      | [] => (str, 1)
      | e :: rest =>
        let r := stringLoop rest (str ++ [unescape e])
        (r.1, r.2 + 2)
    else
      let r := stringLoop cs (str ++ [c])
      (r.1, r.2 + 1)

/-- The method `JsonParser::parseString`: skip the opening quote (whatever character it is), run the loop,
skip the closing quote (whether or not there is one).  The returned pointer is never
null, so the result is the decoded string itself and the new `pos`. -/
def parseString (json : List Char) (pos : Nat) : List Char × Nat :=
  let r := stringLoop (json.drop (pos + 1)) []
  (r.1, pos + 1 + r.2 + 1)

/-- Number of iterations of the loop of `parseNumber` on the remaining input:
`while (pos < json.size() && (isdigit(json[pos]) || json[pos] == '.')) pos++`. -/
def numberRun : List Char → Nat
  | [] => 0
  | c :: cs => if isdigit c || c = '.' then numberRun cs + 1 else 0

/-- The subject sequence of `strtod` (C11 7.22.1.3) for a text made of an optional leading
`-` followed by digits and `.` only, the texts `parseNumber` builds: an optional sign,
then a nonempty sequence of decimal digits optionally containing one radix character.
`none` when the text has no such prefix (then no conversion is performed). -/
def stodSubject (s : List Char) : Option (List Char) :=
  let sign := match s with
    | '-' :: _ => ['-']
    | _ => []
  let r := s.drop sign.length
  let ip := r.takeWhile isdigit
  let r2 := r.drop ip.length
  let fp := match r2 with
    | '.' :: r3 => some (r3.takeWhile isdigit)
    | _ => none
  match fp with
  | some f => if ip = [] ∧ f = [] then none else some (sign ++ ip ++ '.' :: f)
  | none => if ip = [] then none else some (sign ++ ip)

/-- The call `std::stod(numStr)` and the narrowing of its result to the `float` a `JsonNumber`
holds.  It throws `std::invalid_argument` when no conversion can be performed and
`std::out_of_range` when the converted value is out of range; `conv` gives the value
for a subject sequence, `none` standing for out of range. -/
def stod (conv : List Char → Option Nat) (numStr : List Char) : Except Fault Nat :=
  match stodSubject numStr with
  | none => .error .invalidArgument
  | some subject =>
    match conv subject with
    | none => .error .outOfRange
    | some v => .ok v

/-- The method `JsonParser::parseNumber`.  The returned pointer is never null. -/
def parseNumber (conv : List Char → Option Nat) (json : List Char) (pos : Nat) :
    Res (Option JsonValue) :=
  match charAt json pos with
  | .error e => .error e
  | .ok c =>
    let p1 := if c = '-' then pos + 1 else pos
    let p2 := p1 + numberRun (json.drop p1)
    let numStr := (json.drop pos).take (p2 - pos)
    match stod conv numStr with
    | .error e => .error e
    | .ok v => .ok (some (.number v), p2)

/-- The method `JsonParser::parseBool`. -/
def parseBool (json : List Char) (pos : Nat) : Res (Option JsonValue) :=
  if pos + 4 ≤ json.length ∧ (json.drop pos).take 4 = ['t', 'r', 'u', 'e'] then
    .ok (some (.bool true), pos + 4)
  else if pos + 5 ≤ json.length ∧ (json.drop pos).take 5 = ['f', 'a', 'l', 's', 'e'] then
    .ok (some (.bool false), pos + 5)
  else .ok (none, pos)

/-- The method `JsonParser::parseNull`.  `json.substr(pos, 4)` throws `std::out_of_range` when
`pos > json.size()`. -/
def parseNull (json : List Char) (pos : Nat) : Res (Option JsonValue) :=
  if json.length < pos then .error .outOfRange
  else if (json.drop pos).take 4 = ['n', 'u', 'l', 'l'] then .ok (some .null, pos + 4)
  else .ok (none, pos)

/-- The loop of `parseArray` (lines 57-67) followed by lines 69-70; `pv` is `parseValue`,
`arr` the elements added so far. -/
def parseArrayLoop (json : List Char) (pv : Nat → Res (Option JsonValue)) :
    Nat → Nat → List JsonValue → Res (Option JsonValue)
  | 0, _, _ => .error .outOfFuel
  | k + 1, pos, arr =>
    match json[pos]? with
    | none => .ok (some (.array arr), pos + 1)
    | some c =>
      if c = ']' then .ok (some (.array arr), pos + 1)
      else
        match pv pos with
        | .error e => .error e
        | .ok (none, p1) => .ok (none, p1)
        | .ok (some value, p1) =>
          let p2 := skipWhitespace json p1
          let p3 := if json[p2]? = some ',' then skipWhitespace json (p2 + 1) else p2
          parseArrayLoop json pv k p3 (arr ++ [value])

/-- The loop of `parseObject` (lines 79-101) followed by lines 103-105; `pv` is `parseValue`,
`obj` the entries added so far.  The test `if (!keyObj)` of line 82 never fires, as
`parseString` never returns null. -/
def parseObjectLoop (json : List Char) (pv : Nat → Res (Option JsonValue)) :
    Nat → Nat → List (List Char × Option JsonValue) → Res (Option JsonValue)
  | 0, _, _ => .error .outOfFuel
  | k + 1, pos, obj =>
    match json[pos]? with
    | none => .ok (some (.object obj), pos + 1)
    | some c =>
      if c = '}' then .ok (some (.object obj), pos + 1)
      else
        let key := parseString json pos
        let p2 := skipWhitespace json key.2
        let p3 := skipWhitespace json (p2 + 1)
        match pv p3 with
        | .error e => .error e
        | .ok (valueObj, p4) =>
          let obj1 := JsonObject.add obj key.1 valueObj
          let p5 := skipWhitespace json p4
          match charAt json p5 with
          | .error e => .error e
          | .ok d =>
            let p6 := if d = ',' then skipWhitespace json (p5 + 1) else p5
            parseObjectLoop json pv k p6 obj1

/-- The method `JsonParser::parseValue`, with `parseArray` and `parseObject` inlined up to their loops.
The first argument is the fuel. -/
def parseValue (conv : List Char → Option Nat) (json : List Char) :
    Nat → Nat → Res (Option JsonValue)
  | 0, _ => .error .outOfFuel
  | fuel + 1, pos0 =>
    let pos := skipWhitespace json pos0
    match json[pos]? with
    | none => .ok (none, pos)
    | some c =>
      if c = '{' then
        parseObjectLoop json (parseValue conv json fuel) fuel (skipWhitespace json (pos + 1)) []
      else if c = '[' then
        parseArrayLoop json (parseValue conv json fuel) fuel (skipWhitespace json (pos + 1)) []
      else if c = '"' then
        let r := parseString json pos
        .ok (some (.string r.1), r.2)
      else if c = 't' ∨ c = 'f' then parseBool json pos
      else if c = 'n' then parseNull json pos
      else if isdigit c ∨ c = '-' then parseNumber conv json pos
      else .ok (none, pos)

/-- The method `JsonParser::parse` on a parser constructed from `json`: the pointer `parseValue`
returns with the cursor at 0, or the fault. -/
def parse (conv : List Char → Option Nat) (json : List Char) : Except Fault (Option JsonValue) :=
  match parseValue conv json (json.length + 2) 0 with
  | .ok (r, _) => .ok r
  | .error e => .error e

/-! ## The printer -/

/-- The function `printIndent`: two spaces, `indent` times. -/
def printIndent : Nat → List Char
  | 0 => []
  | indent + 1 => ' ' :: ' ' :: printIndent indent

mutual
/-- The function `printValue` of `main.cpp`, returning the text sent to `std::cout`.  `fmt` is the text
`operator<<` gives a `float`.  `none` stands for the undefined behaviour of
dereferencing a null child pointer (`*pair.second`). -/
def printValue (fmt : Nat → List Char) : JsonValue → Nat → Option (List Char)
  | .number value, _ => some (fmt value)
  | .string value, _ => some ('"' :: value ++ ['"'])
  | .bool value, _ => some (if value then ['t', 'r', 'u', 'e'] else ['f', 'a', 'l', 's', 'e'])
  | .null, _ => some ['n', 'u', 'l', 'l']
  | .array members, indent =>
    match printElements fmt members indent with
    | none => none
    | some body => some ('[' :: '\n' :: body ++ printIndent indent ++ [']'])
  | .object members, indent =>
    match printMembers fmt members indent with
    | none => none
    | some body => some ('{' :: '\n' :: body ++ printIndent indent ++ ['}'])
/-- The loop of the `ARRAY` case over the elements not yet printed. -/
def printElements (fmt : Nat → List Char) : List JsonValue → Nat → Option (List Char)
  | [], _ => some []
  | v :: rest, indent =>
    match printValue fmt v (indent + 1), printElements fmt rest indent with
    | some t, some body =>
      some (printIndent (indent + 1) ++ t ++ (if rest.isEmpty then [] else [',']) ++ '\n' :: body)
    | _, _ => none
/-- The loop of the `OBJECT` case over the entries not yet printed. -/
def printMembers (fmt : Nat → List Char) :
    List (List Char × Option JsonValue) → Nat → Option (List Char)
  | [], _ => some []
  | (key, some v) :: rest, indent =>
    match printValue fmt v (indent + 1), printMembers fmt rest indent with
    | some t, some body =>
      some (printIndent (indent + 1) ++ '"' :: key ++ '"' :: ':' :: ' ' :: t
        ++ (if rest.isEmpty then [] else [',']) ++ '\n' :: body)
    | _, _ => none
  | (_, none) :: _, _ => none
end

/-! ## Pieces of a string literal -/

/-- One unit of the body of a string literal: a character standing for itself, or a
backslash followed by a character. -/
inductive Piece where
  | plain (c : Char)
  | escape (c : Char)

/-- The characters of the input a piece occupies. -/
def Piece.text : Piece → List Char
  | .plain c => [c]
  | .escape c => ['\\', c]

/-- The character a piece adds to the decoded string. -/
def Piece.denotes : Piece → Char
  | .plain c => c
  | .escape c => unescape c

/-- A plain piece is neither the closing quote nor the backslash that opens an escape. -/
def Piece.wellFormed : Piece → Prop
  | .plain c => c ≠ '"' ∧ c ≠ '\\'
  | .escape _ => True

/-- The input text of a sequence of pieces. -/
def piecesText : List Piece → List Char
  | [] => []
  | p :: ps => p.text ++ piecesText ps

/-! ## Trees that are read back -/

/-- The text `fmt` gives the number `x` is one `parseNumber` reads back: a digit or `-`, then digits
and `.` only, which `std::stod` converts to `x` again. -/
def NumberReadsBack (conv : List Char → Option Nat) (fmt : Nat → List Char) (x : Nat) : Prop :=
  ∃ c cs, fmt x = c :: cs ∧ (isdigit c = true ∨ c = '-')
    ∧ (∀ d ∈ cs, isdigit d = true ∨ d = '.') ∧ stod conv (c :: cs) = .ok x

/-- No character of the text is a double quote or a backslash. -/
def QuoteFree (s : List Char) : Prop :=
  ∀ c ∈ s, c ≠ '"' ∧ c ≠ '\\'

mutual
/-- The trees of the round trip: every number is printed as a text that is read back, no string
and no key holds a double quote or a backslash, no entry of an object holds a null
pointer and no two entries of an object have the same key. -/
def Printable (conv : List Char → Option Nat) (fmt : Nat → List Char) : JsonValue → Prop
  | .number value => NumberReadsBack conv fmt value
  | .string value => QuoteFree value
  | .bool _ => True
  | .null => True
  | .array members => PrintableElements conv fmt members
  | .object members =>
    PrintableMembers conv fmt members ∧ (JsonValue.keys members).Nodup
/-- Every element of an array is `Printable`. -/
def PrintableElements (conv : List Char → Option Nat) (fmt : Nat → List Char) :
    List JsonValue → Prop
  | [] => True
  | v :: rest => Printable conv fmt v ∧ PrintableElements conv fmt rest
/-- Every entry of an object has a quote-free key and a `Printable` value. -/
def PrintableMembers (conv : List Char → Option Nat) (fmt : Nat → List Char) :
    List (List Char × Option JsonValue) → Prop
  | [] => True
  | (key, some v) :: rest =>
    QuoteFree key ∧ Printable conv fmt v ∧ PrintableMembers conv fmt rest
  | (_, none) :: _ => False
end

/-- The text begins with a character that is no whitespace and closes no container. -/
def Starts (t : List Char) : Prop :=
  ∃ c r, t = c :: r ∧ isspace c = false ∧ c ≠ ']' ∧ c ≠ '}'

/-- The text does not begin with a character the loop of `parseNumber` would take. -/
def Follow (rest : List Char) : Prop :=
  ∀ d r, rest = d :: r → isdigit d = false ∧ d ≠ '.'

/-- The text printed for `v` at any indent, wherever it stands in the input, is parsed back to
`v` by `parseValue`, which leaves `pos` behind it. -/
def ValueReadsBack (conv : List Char → Option Nat) (fmt : Nat → List Char) (v : JsonValue) :
    Prop :=
  ∀ n, ∃ t, printValue fmt v n = some t ∧ Starts t ∧
    ∀ json pos rest fuel, json.drop pos = t ++ rest → Follow rest → t.length ≤ fuel →
      parseValue conv json fuel pos = .ok (some v, pos + t.length)

/-- The lines printed for the elements `vs`, followed by the closing line of the array, are parsed
back by the loop of `parseArray`, which appends `vs` to the elements it holds. -/
def ElementsReadBack (conv : List Char → Option Nat) (fmt : Nat → List Char)
    (vs : List JsonValue) : Prop :=
  ∀ n, ∃ body, printElements fmt vs n = some body ∧
    ∀ json p rest f k arr, json.drop p = body ++ printIndent n ++ ']' :: rest →
      (body ++ printIndent n).length < f → (body ++ printIndent n).length < k →
      parseArrayLoop json (parseValue conv json f) k (skipWhitespace json p) arr
        = .ok (some (.array (arr ++ vs)), p + (body ++ printIndent n).length + 1)

/-- The lines printed for the entries `ms`, followed by the closing line of the object, are parsed
back by the loop of `parseObject`, which appends `ms` to the entries it holds when
none of their keys is held already. -/
def MembersReadBack (conv : List Char → Option Nat) (fmt : Nat → List Char)
    (ms : List (List Char × Option JsonValue)) : Prop :=
  ∀ n, ∃ body, printMembers fmt ms n = some body ∧
    ∀ json p rest f k obj, json.drop p = body ++ printIndent n ++ '}' :: rest →
      (body ++ printIndent n).length < f → (body ++ printIndent n).length < k →
      (JsonValue.keys ms).Nodup → (∀ key ∈ JsonValue.keys ms, key ∉ JsonValue.keys obj) →
      parseObjectLoop json (parseValue conv json f) k (skipWhitespace json p) obj
        = .ok (some (.object (obj ++ ms)), p + (body ++ printIndent n).length + 1)

/-! ## The other methods of JsonObject -/

/-- The method `JsonObject::remove`, `members.erase(key)`: the entry under `key` goes, when there is one. -/
def JsonObject.remove (members : List (List Char × Option JsonValue)) (key : List Char) :
    List (List Char × Option JsonValue) :=
  members.filter (fun e => decide (e.1 ≠ key))

/-- The call `members.count(key)`: the number of entries under `key`. -/
def JsonObject.count (members : List (List Char × Option JsonValue)) (key : List Char) : Nat :=
  (members.filter (fun e => decide (e.1 = key))).length

/-- The method `JsonObject::has`, `members.count(key) == 0 ? false : true`, with the entries after
the call. -/
def JsonObject.has (members : List (List Char × Option JsonValue)) (key : List Char) :
    Bool × List (List Char × Option JsonValue) :=
  (if JsonObject.count members key = 0 then false else true, members)

/-- What a call of `JsonObject::get` does: it returns a reference to a value, or `members.at(key)`
throws `std::out_of_range` because there is no entry under the key, or the stored
pointer is null and `*` dereferences it (undefined behaviour). -/
inductive GetResult where
  | value (v : JsonValue)
  | keyNotFound
  | nullDereference

/-- The method `JsonObject::get`, `*members.at(key)`, with the entries after the call. -/
def JsonObject.get (members : List (List Char × Option JsonValue)) (key : List Char) :
    GetResult × List (List Char × Option JsonValue) :=
  match members.find? (fun e => decide (e.1 = key)) with
  | none => (.keyNotFound, members)
  | some (_, none) => (.nullDereference, members)
  | some (_, some v) => (.value v, members)

/-- A call that changes a `JsonObject`. -/
inductive ObjectOp where
  | add (key : List Char) (value : Option JsonValue)
  | remove (key : List Char)

/-- The key a call is made with. -/
def ObjectOp.key : ObjectOp → List Char
  | .add key _ => key
  | .remove key => key

/-- The entries of the object a sequence of `add` and `remove` calls builds from the empty
object. -/
def JsonObject.build (ops : List ObjectOp) : List (List Char × Option JsonValue) :=
  ops.foldl (fun members op =>
    match op with
    | .add key value => JsonObject.add members key value
    | .remove key => JsonObject.remove members key) []

/-- The pointer most recently added under `key` and not removed afterwards, read off the
sequence of calls: `none` when `key` was never added or was removed after its last
`add`. -/
def lastAdded (key : List Char) (ops : List ObjectOp) : Option (Option JsonValue) :=
  ops.foldl (fun found op =>
    match op with
    | .add k value => if k = key then some value else found
    | .remove k => if k = key then none else found) none

/-! ## The layout of a container, in the words of the specification -/

/-- A run of `n` indentation units of two spaces each. -/
def indentUnits (n : Nat) : List Char :=
  (List.replicate n [' ', ' ']).flatten

/-- The line of child number `i` (from 0) out of `k` at level `n`: `n + 1` indentation units, the
child, a `,` unless the child is the last one, and the end of the line. -/
def childLine (n k : Nat) (child : Nat × List Char) : List Char :=
  indentUnits (n + 1) ++ child.2 ++ (if child.1 + 1 < k then [','] else []) ++ ['\n']

/-- A container at level `n`: the opening bracket and a newline, the lines of the children, `n`
indentation units and the closing bracket. -/
def containerLayout (opening closing : Char) (n : Nat) (children : List (List Char)) :
    List Char :=
  [opening, '\n'] ++ (children.enum.map (childLine n children.length)).flatten
    ++ indentUnits n ++ [closing]

/-- An object child as it stands on its line: the quoted key, a colon, a space, the value. -/
def keyedChild (key child : List Char) : List Char :=
  ['"'] ++ key ++ ['"', ':', ' '] ++ child

/-! ## The cursor only moves forward -/

/-- A parsing routine never moves `pos` backwards, and moves it forward when it returns a
value. -/
def Progress (pv : Nat → Res (Option JsonValue)) : Prop :=
  ∀ pos r p, pv pos = .ok (r, p) → pos ≤ p ∧ (r ≠ none → pos < p)

/-! ## JSON texts with their whitespace -/

/-- A JSON text laid out in any way, as a tree: the scalars as they are written, and for each
container the whitespace that stands behind the opening bracket, around each colon
and around each comma.  An item of an array is a text, the whitespace behind it and
the whitespace behind the comma that follows it (not used for the last item).  An
entry of an object is the pieces of its key, the whitespace before the colon, the
whitespace behind the colon, the text of the value, the whitespace behind it and the
whitespace behind the comma that follows (not used for the last entry). -/
inductive Doc where
  | number (token : List Char) (value : Nat)
  | string (pieces : List Piece)
  | bool (value : Bool)
  | null
  | array (afterOpen : List Char) (items : List (Doc × List Char × List Char))
  | object (afterOpen : List Char)
      (entries : List (List Piece × List Char × List Char × Doc × List Char × List Char))

mutual
/-- The characters of a laid-out text. -/
def Doc.text : Doc → List Char
  | .number token _ => token
  | .string pieces => '"' :: piecesText pieces ++ ['"']
  | .bool value => if value then ['t', 'r', 'u', 'e'] else ['f', 'a', 'l', 's', 'e']
  | .null => ['n', 'u', 'l', 'l']
  | .array afterOpen items => '[' :: afterOpen ++ Doc.itemsText items ++ [']']
  | .object afterOpen entries => '{' :: afterOpen ++ Doc.entriesText entries ++ ['}']
/-- The characters of the items of an array, commas included. -/
def Doc.itemsText : List (Doc × List Char × List Char) → List Char
  | [] => []
  | (d, wsEnd, wsNext) :: rest =>
    Doc.text d ++ wsEnd ++ (if rest.isEmpty then [] else ',' :: wsNext ++ Doc.itemsText rest)
/-- The characters of the entries of an object, commas included. -/
def Doc.entriesText :
    List (List Piece × List Char × List Char × Doc × List Char × List Char) → List Char
  | [] => []
  | (key, wsKey, wsColon, d, wsEnd, wsNext) :: rest =>
    '"' :: piecesText key ++ '"' :: wsKey ++ ':' :: wsColon ++ Doc.text d ++ wsEnd
      ++ (if rest.isEmpty then [] else ',' :: wsNext ++ Doc.entriesText rest)
end

mutual
/-- The tree a laid-out text stands for: the whitespace is dropped, the escapes of strings and
keys are decoded, and the entries of an object are added one after the other with
`JsonObject::add`, so that a later entry replaces an earlier one with the same key. -/
def Doc.value : Doc → JsonValue
  | .number _ value => .number value
  | .string pieces => .string (pieces.map Piece.denotes)
  | .bool value => .bool value
  | .null => .null
  | .array _ items => .array (Doc.itemsValue items)
  | .object _ entries => .object (Doc.entriesValue entries [])
/-- The values of the items of an array. -/
def Doc.itemsValue : List (Doc × List Char × List Char) → List JsonValue
  | [] => []
  | (d, _, _) :: rest => Doc.value d :: Doc.itemsValue rest
/-- The entries of an object after the entries of the text have been added to `obj` in turn. -/
def Doc.entriesValue :
    List (List Piece × List Char × List Char × Doc × List Char × List Char) →
      List (List Char × Option JsonValue) → List (List Char × Option JsonValue)
  | [], obj => obj
  | (key, _, _, d, _, _) :: rest, obj =>
    Doc.entriesValue rest (JsonObject.add obj (key.map Piece.denotes) (some (Doc.value d)))
end

/-- Every character of the text is whitespace to `isspace`. -/
def AllSpace (ws : List Char) : Prop :=
  ∀ c ∈ ws, isspace c = true

mutual
/-- The whitespace of the text is whitespace, every number token is one that `parseNumber` takes
whole and `std::stod` converts to the value noted, and the plain pieces of strings
and keys are neither quotes nor backslashes. -/
def Doc.WellFormed (conv : List Char → Option Nat) : Doc → Prop
  | .number token value => NumberReadsBack conv (fun _ => token) value
  | .string pieces => ∀ p ∈ pieces, p.wellFormed
  | .bool _ => True
  | .null => True
  | .array afterOpen items => AllSpace afterOpen ∧ Doc.itemsWellFormed conv items
  | .object afterOpen entries => AllSpace afterOpen ∧ Doc.entriesWellFormed conv entries
/-- Every item of an array is well formed. -/
def Doc.itemsWellFormed (conv : List Char → Option Nat) :
    List (Doc × List Char × List Char) → Prop
  | [] => True
  | (d, wsEnd, wsNext) :: rest =>
    Doc.WellFormed conv d ∧ AllSpace wsEnd ∧ AllSpace wsNext ∧ Doc.itemsWellFormed conv rest
/-- Every entry of an object is well formed. -/
def Doc.entriesWellFormed (conv : List Char → Option Nat) :
    List (List Piece × List Char × List Char × Doc × List Char × List Char) → Prop
  | [] => True
  | (key, wsKey, wsColon, d, wsEnd, wsNext) :: rest =>
    (∀ p ∈ key, p.wellFormed) ∧ AllSpace wsKey ∧ AllSpace wsColon ∧ Doc.WellFormed conv d
      ∧ AllSpace wsEnd ∧ AllSpace wsNext ∧ Doc.entriesWellFormed conv rest
end

mutual
/-- The same text with all the whitespace around brackets, colons and commas taken out. -/
def Doc.compact : Doc → Doc
  | .number token value => .number token value
  | .string pieces => .string pieces
  | .bool value => .bool value
  | .null => .null
  | .array _ items => .array [] (Doc.compactItems items)
  | .object _ entries => .object [] (Doc.compactEntries entries)
/-- The items of an array with the whitespace taken out. -/
def Doc.compactItems : List (Doc × List Char × List Char) → List (Doc × List Char × List Char)
  | [] => []
  | (d, _, _) :: rest => (Doc.compact d, [], []) :: Doc.compactItems rest
/-- The entries of an object with the whitespace taken out. -/
def Doc.compactEntries :
    List (List Piece × List Char × List Char × Doc × List Char × List Char) →
      List (List Piece × List Char × List Char × Doc × List Char × List Char)
  | [] => []
  | (key, _, _, d, _, _) :: rest => (key, [], [], Doc.compact d, [], []) :: Doc.compactEntries rest
end

/-- The text of `d`, wherever it stands in the input, is parsed to the tree of `d` by `parseValue`,
which leaves `pos` behind it. -/
def DocReadsBack (conv : List Char → Option Nat) (d : Doc) : Prop :=
  Starts (Doc.text d) ∧
    ∀ json pos rest fuel, json.drop pos = Doc.text d ++ rest → Follow rest →
      (Doc.text d).length ≤ fuel →
      parseValue conv json fuel pos = .ok (some (Doc.value d), pos + (Doc.text d).length)

/-- The items of an array followed by `]` are parsed by the loop of `parseArray`, which appends
their values to the elements it holds. -/
def ItemsReadBack (conv : List Char → Option Nat) (items : List (Doc × List Char × List Char)) :
    Prop :=
  ∀ json p rest f k arr, json.drop p = Doc.itemsText items ++ ']' :: rest →
    (Doc.itemsText items).length < f → (Doc.itemsText items).length < k →
    parseArrayLoop json (parseValue conv json f) k p arr
      = .ok (some (.array (arr ++ Doc.itemsValue items)), p + (Doc.itemsText items).length + 1)

/-- The entries of an object followed by `}` are parsed by the loop of `parseObject`, which adds
them in turn to the entries it holds. -/
def EntriesReadBack (conv : List Char → Option Nat)
    (entries : List (List Piece × List Char × List Char × Doc × List Char × List Char)) : Prop :=
  ∀ json p rest f k obj, json.drop p = Doc.entriesText entries ++ '}' :: rest →
    (Doc.entriesText entries).length < f → (Doc.entriesText entries).length < k →
    parseObjectLoop json (parseValue conv json f) k p obj
      = .ok (some (.object (Doc.entriesValue entries obj)),
          p + (Doc.entriesText entries).length + 1)

/-! ## Moving the input -/

mutual
/-- The trees built from null, booleans, strings, arrays and objects only, in which no string
and no key holds a double quote or a backslash.  As in every tree the program builds
from values, an entry of an object holds a value (no null pointer) and the keys of an
object are pairwise different (they are the keys of an `unordered_map`). -/
def Restricted : JsonValue → Prop
  | .number _ => False
  | .string value => QuoteFree value
  | .bool _ => True
  | .null => True
  | .array members => RestrictedElements members
  | .object members => RestrictedMembers members ∧ (JsonValue.keys members).Nodup
/-- Every element of an array is `Restricted`. -/
def RestrictedElements : List JsonValue → Prop
  | [] => True
  | v :: rest => Restricted v ∧ RestrictedElements rest
/-- Every entry of an object has a quote-free key and a `Restricted` value. -/
def RestrictedMembers : List (List Char × Option JsonValue) → Prop
  | [] => True
  | (key, some v) :: rest => QuoteFree key ∧ Restricted v ∧ RestrictedMembers rest
  | (_, none) :: _ => False
end

/-! ## Reading the input through `List.drop` -/

theorem getElem?_of_drop {json : List Char} {p : Nat} {c : Char} {r : List Char}
    (h : json.drop p = c :: r) : json[p]? = some c := by
  have := congrArg List.head? h
  simpa [List.head?_drop] using this

theorem drop_succ_of_drop {json : List Char} {p : Nat} {c : Char} {r : List Char}
    (h : json.drop p = c :: r) : json.drop (p + 1) = r := by
  have := congrArg List.tail h
  simpa [List.tail_drop] using this

theorem drop_add_of_drop {json : List Char} {p : Nat} (a : List Char) {b : List Char}
    (h : json.drop p = a ++ b) : json.drop (p + a.length) = b := by
  rw [← List.drop_drop, h, List.drop_left]

theorem getElem?_of_drop_nil {json : List Char} {p : Nat}
    (h : json.drop p = []) : json[p]? = none := by
  have := congrArg List.head? h
  simpa [List.head?_drop] using this

/-! ## String literals -/

theorem stringLoop_quote (rest str : List Char) : stringLoop ('"' :: rest) str = (str, 0) := by
  rw [stringLoop.eq_def]; simp

theorem stringLoop_escape (e : Char) (rest str : List Char) :
    stringLoop ('\\' :: e :: rest) str
      = ((stringLoop rest (str ++ [unescape e])).1, (stringLoop rest (str ++ [unescape e])).2 + 2) := by
  rw [stringLoop.eq_def]; simp

theorem stringLoop_plain (c : Char) (cs str : List Char) (h1 : c ≠ '"') (h2 : c ≠ '\\') :
    stringLoop (c :: cs) str
      = ((stringLoop cs (str ++ [c])).1, (stringLoop cs (str ++ [c])).2 + 1) := by
  rw [stringLoop.eq_def]; simp [h1, h2]

theorem stringLoop_pieces (ps : List Piece) (h : ∀ p ∈ ps, p.wellFormed) (rest str : List Char) :
    stringLoop (piecesText ps ++ '"' :: rest) str
      = (str ++ ps.map Piece.denotes, (piecesText ps).length) := by
  induction ps generalizing str with
  | nil => simp [piecesText, stringLoop_quote]
  | cons p ps ih =>
    have hp := h p (List.mem_cons_self _ _)
    have hps : ∀ q ∈ ps, q.wellFormed := fun q hq => h q (List.mem_cons_of_mem _ hq)
    cases p with
    | plain c =>
      obtain ⟨h1, h2⟩ := hp
      simp [piecesText, Piece.text, stringLoop_plain _ _ _ h1 h2, ih hps, Piece.denotes]
    | escape c =>
      simp [piecesText, Piece.text, stringLoop_escape, ih hps, Piece.denotes]

theorem stringLoop_run_end (s : List Char) (h : ∀ c ∈ s, c ≠ '"' ∧ c ≠ '\\') (str : List Char) :
    stringLoop s str = (str ++ s, s.length) := by
  induction s generalizing str with
  | nil => simp [stringLoop]
  | cons c cs ih =>
    obtain ⟨h1, h2⟩ := h c (List.mem_cons_self _ _)
    have hcs : ∀ d ∈ cs, d ≠ '"' ∧ d ≠ '\\' := fun d hd => h d (List.mem_cons_of_mem _ hd)
    simp [stringLoop_plain _ _ _ h1 h2, ih hcs]

theorem stringLoop_run_quote (s : List Char) (h : ∀ c ∈ s, c ≠ '"' ∧ c ≠ '\\')
    (rest str : List Char) :
    stringLoop (s ++ '"' :: rest) str = (str ++ s, s.length) := by
  induction s generalizing str with
  | nil => simp [stringLoop_quote]
  | cons c cs ih =>
    obtain ⟨h1, h2⟩ := h c (List.mem_cons_self _ _)
    have hcs : ∀ d ∈ cs, d ≠ '"' ∧ d ≠ '\\' := fun d hd => h d (List.mem_cons_of_mem _ hd)
    simp [stringLoop_plain _ _ _ h1 h2, ih hcs]

/-! ## Whitespace -/

theorem skipWhitespace_of_drop_cons {json : List Char} {p : Nat} {c : Char} {r : List Char}
    (h : json.drop p = c :: r) (hc : isspace c = false) : skipWhitespace json p = p := by
  simp [skipWhitespace, h, spaceRun, hc]

theorem skipWhitespace_of_drop_nil {json : List Char} {p : Nat}
    (h : json.drop p = []) : skipWhitespace json p = p := by
  simp [skipWhitespace, h, spaceRun]

/-! ## Dispatch on a string literal -/

theorem parseValue_string (conv : List Char → Option Nat) {json : List Char} {pos : Nat}
    {body : List Char} (fuel : Nat) (h : json.drop pos = '"' :: body) :
    parseValue conv json (fuel + 1) pos
      = .ok (some (.string (stringLoop body []).1), pos + 1 + (stringLoop body []).2 + 1) := by
  have hs : skipWhitespace json pos = pos := skipWhitespace_of_drop_cons h (by decide)
  simp [parseValue, hs, getElem?_of_drop h, parseString, drop_succ_of_drop h]

theorem parse_string (conv : List Char → Option Nat) (body : List Char) :
    parse conv ('"' :: body) = .ok (some (.string (stringLoop body []).1)) := by
  have h : ('"' :: body).drop 0 = '"' :: body := rfl
  simp [parse, parseValue_string conv _ h]

/-! ## Behaviour on malformed input -/

/-- C3: on the four-character input `{"a"` the unguarded access `json[pos]` of line 97 in
`parseObject` is made at index 5, beyond the end of the input. -/
theorem parse_reads_past_end (conv : List Char → Option Nat) :
    parse conv ['{', '"', 'a', '"'] = .error (.readPastEnd 5) := rfl

/-- C4: on the input `{"a":}` `parse` returns an object whose entry `a` holds a null pointer, not
an error. -/
theorem parse_missing_value_null_child (conv : List Char → Option Nat) :
    parse conv ['{', '"', 'a', '"', ':', '}'] = .ok (some (.object [(['a'], none)])) := rfl

/-- C5: on the input `{"a" 1}` (no colon after the key) `parse` returns an object, not an error:
the character after the whitespace is skipped unseen, and the entry `a` holds a null
pointer.  On `{"a"x1}` the `x` is skipped in the same way and the entry `a` holds the
number. -/
theorem parse_missing_colon_accepted (conv : List Char → Option Nat) :
    parse conv ['{', '"', 'a', '"', ' ', '1', '}'] = .ok (some (.object [(['a'], none)]))
      ∧ ∀ v, conv ['1'] = some v →
        parse conv ['{', '"', 'a', '"', 'x', '1', '}']
          = .ok (some (.object [(['a'], some (.number v))])) := by
  refine ⟨rfl, ?_⟩
  intro v h
  simp [parse, parseValue, parseObjectLoop, parseNumber, stod, stodSubject, h,
    skipWhitespace, spaceRun, numberRun, charAt, isdigit, isspace, parseString, stringLoop,
    JsonObject.add]

/-- C7: on the inputs `[` and `{`, which end before the closing bracket, `parse` returns the empty
array and the empty object, not an error; on `[1` it returns the array of the
number. -/
theorem parse_unterminated_container_accepted (conv : List Char → Option Nat) :
    parse conv ['['] = .ok (some (.array [])) ∧ parse conv ['{'] = .ok (some (.object []))
      ∧ ∀ v, conv ['1'] = some v → parse conv ['[', '1'] = .ok (some (.array [.number v])) := by
  refine ⟨rfl, rfl, ?_⟩
  intro v h
  simp [parse, parseValue, parseArrayLoop, parseNumber, stod, stodSubject, h, skipWhitespace,
    spaceRun, numberRun, charAt, isdigit, isspace]

/-- C8: an opening quote followed by characters none of which is a quote or a backslash, and then
the end of the input, is parsed to the string of those characters, not to an error. -/
theorem parse_unterminated_string_accepted (conv : List Char → Option Nat) (s : List Char)
    (h : ∀ c ∈ s, c ≠ '"' ∧ c ≠ '\\') :
    parse conv ('"' :: s) = .ok (some (.string s)) := by
  simp [parse_string, stringLoop_run_end s h]

/-- C8, at the 13-character input of the claim. -/
theorem parse_unterminated_string_accepted_witness :
    (∀ c ∈ "unterminated".toList, c ≠ '"' ∧ c ≠ '\\')
      ∧ parse (fun _ => none) "\"unterminated".toList
          = .ok (some (.string "unterminated".toList)) :=
  ⟨by decide, parse_unterminated_string_accepted _ "unterminated".toList (by decide)⟩

/-! ## Escape sequences -/

/-- C10 (as stated, refuted): the literal `"\r"` does not decode to a carriage return. -/
theorem escape_r_not_carriage_return :
    ¬ ∃ conv, parse conv ['"', '\\', 'r', '"'] = .ok (some (.string ['\r'])) := by
  rintro ⟨conv, h⟩
  have e : parse conv ['"', '\\', 'r', '"'] = .ok (some (.string ['r'])) := rfl
  rw [e] at h
  simp at h

/-- C10 (amended): in a string literal every unescaped character contributes itself and every
escape sequence contributes `unescape` of the character after the backslash, which is
the denoted character for `\n`, `\t`, `\"`, `\\` and `\/` and the character itself for
every other one (so `\r`, `\b`, `\f` contribute `r`, `b`, `f`). -/
theorem escape_decoding (conv : List Char → Option Nat) (ps : List Piece) (rest : List Char)
    (h : ∀ p ∈ ps, p.wellFormed) :
    parse conv ('"' :: piecesText ps ++ '"' :: rest) = .ok (some (.string (ps.map Piece.denotes)))
      ∧ unescape 'n' = '\n' ∧ unescape 't' = '\t' ∧ unescape '"' = '"'
      ∧ unescape '\\' = '\\' ∧ unescape '/' = '/'
      ∧ ∀ c, c ≠ 'n' → c ≠ 't' → unescape c = c := by
  refine ⟨?_, by decide, by decide, by decide, by decide, by decide, ?_⟩
  · have := parse_string conv (piecesText ps ++ '"' :: rest)
    simpa [stringLoop_pieces ps h] using this
  · intro c h1 h2
    unfold unescape
    simp only [h1, h2, if_false]
    split_ifs with h3 h4 <;> simp_all

/-- C10, at the literal `"hi\n"`: it decodes to `h`, `i`, line feed. -/
theorem escape_decoding_witness :
    parse (fun _ => none) ['"', 'h', 'i', '\\', 'n', '"'] = .ok (some (.string ['h', 'i', '\n'])) :=
  (escape_decoding (fun _ => none) [.plain 'h', .plain 'i', .escape 'n'] []
    (by simp [Piece.wellFormed])).1

/-! ## Numbers -/

theorem isdigit_not_space {c : Char} (hd : isdigit c = true) : isspace c = false := by
  simp only [isdigit, Bool.and_eq_true, decide_eq_true_eq] at hd
  have h1 : (48 : Nat) ≤ c.toNat := hd.1
  have h2 : c.toNat ≤ 57 := hd.2
  simp only [isspace, Bool.or_eq_false_iff, decide_eq_false_iff_not]
  refine ⟨⟨⟨⟨⟨?_, ?_⟩, ?_⟩, ?_⟩, ?_⟩, ?_⟩ <;> (rintro rfl; revert h1 h2; decide)

theorem ne_of_isdigit {c : Char} (hd : isdigit c = true) (x : Char) (hx : isdigit x = false) :
    c ≠ x := by
  rintro rfl
  simp [hd] at hx

theorem parseValue_digit (conv : List Char → Option Nat) {json : List Char} {pos : Nat} {c : Char}
    {r : List Char} (fuel : Nat) (h : json.drop (skipWhitespace json pos) = c :: r)
    (hd : isdigit c = true) :
    parseValue conv json (fuel + 1) pos = parseNumber conv json (skipWhitespace json pos) := by
  simp [parseValue, getElem?_of_drop h, hd, ne_of_isdigit hd '{' (by decide),
    ne_of_isdigit hd '[' (by decide), ne_of_isdigit hd '"' (by decide),
    ne_of_isdigit hd 't' (by decide), ne_of_isdigit hd 'f' (by decide),
    ne_of_isdigit hd 'n' (by decide)]

theorem numberRun_cons_digit {c : Char} (hd : isdigit c = true) (r : List Char) :
    numberRun (c :: r) = numberRun r + 1 := by
  simp [numberRun, hd]

theorem parseNumber_digit (conv : List Char → Option Nat) {json : List Char} {p : Nat} {c : Char}
    {r : List Char} (h : json.drop p = c :: r) (hd : isdigit c = true) :
    parseNumber conv json p
      = match stod conv ((c :: r).take (numberRun (c :: r))) with
        | .error e => .error e
        | .ok v => .ok (some (.number v), p + numberRun (c :: r)) := by
  have hm : c ≠ '-' := ne_of_isdigit hd '-' (by decide)
  simp [parseNumber, charAt, getElem?_of_drop h, hm, h]

theorem stodSubject_digit {c : Char} (hd : isdigit c = true) (t : List Char) :
    ∃ subject, stodSubject (c :: t) = some subject := by
  have hm : c ≠ '-' := ne_of_isdigit hd '-' (by decide)
  have hs : (match c :: t with | '-' :: _ => ['-'] | _ => ([] : List Char)) = [] := by
    split
    · rename_i heq
      simp at heq
      exact absurd heq.1 hm
    · rfl
  unfold stodSubject
  simp only [hs, List.length_nil, List.drop_zero, List.takeWhile_cons, hd, if_true]
  split <;> simp

/-- C9 (as stated, refuted): on the input `01` `parse` does not return the error result, whatever the
floating-point conversion does. -/
theorem leading_zero_not_rejected : ¬ ∃ conv, parse conv ['0', '1'] = .ok none := by
  rintro ⟨conv, h⟩
  cases hc : conv ['0', '1'] <;>
  simp [parse, parseValue, parseNumber, stod, stodSubject, hc, skipWhitespace,
    spaceRun, numberRun, charAt, isdigit, isspace] at h

theorem parse_leading_digit (conv : List Char → Option Nat) (json : List Char) (c : Char)
    (h : json[skipWhitespace json 0]? = some c) (hd : isdigit c = true) :
    ∃ subject,
      stodSubject ((json.drop (skipWhitespace json 0)).take
          (numberRun (json.drop (skipWhitespace json 0)))) = some subject
      ∧ parse conv json
          = match conv subject with
            | some v => .ok (some (.number v))
            | none => .error .outOfRange := by
  obtain ⟨hlt, hget⟩ := List.getElem?_eq_some_iff.mp h
  have hdrop : json.drop (skipWhitespace json 0)
      = c :: json.drop (skipWhitespace json 0 + 1) := by
    rw [← hget]; exact List.drop_eq_getElem_cons hlt
  have hrun : numberRun (json.drop (skipWhitespace json 0))
      = numberRun (json.drop (skipWhitespace json 0 + 1)) + 1 := by
    rw [hdrop]; exact numberRun_cons_digit hd _
  have htake : (json.drop (skipWhitespace json 0)).take
        (numberRun (json.drop (skipWhitespace json 0)))
      = c :: (json.drop (skipWhitespace json 0 + 1)).take
          (numberRun (json.drop (skipWhitespace json 0 + 1))) := by
    rw [hrun, hdrop]; simp
  obtain ⟨subject, hsub⟩ := stodSubject_digit hd
    ((json.drop (skipWhitespace json 0 + 1)).take
      (numberRun (json.drop (skipWhitespace json 0 + 1))))
  refine ⟨subject, by rw [htake]; exact hsub, ?_⟩
  unfold parse
  rw [parseValue_digit conv _ hdrop hd, parseNumber_digit conv hdrop hd, ← hdrop, htake]
  unfold stod
  rw [hsub]
  cases hc : conv subject <;> simp [hc]

/-- C2: `parse` on the one-character input `-` raises `std::invalid_argument` (thrown by
`std::stod` inside `parseNumber`) instead of returning the null result; and when the
first significant character is a digit and `std::stod` reports the converted value out
of range, `parse` raises `std::out_of_range`. -/
theorem parse_number_throws (conv : List Char → Option Nat) :
    parse conv ['-'] = .error .invalidArgument
      ∧ ∀ json c subject, json[skipWhitespace json 0]? = some c → isdigit c = true →
          stodSubject ((json.drop (skipWhitespace json 0)).take
            (numberRun (json.drop (skipWhitespace json 0)))) = some subject →
          conv subject = none → parse conv json = .error .outOfRange := by
  refine ⟨rfl, ?_⟩
  intro json c subject h hd hsub hconv
  obtain ⟨subject', hsub', hparse⟩ := parse_leading_digit conv json c h hd
  rw [hsub] at hsub'
  cases hsub'
  rw [hparse, hconv]

/-- C9 (amended): the number production checks no grammar.  When the first significant
character of the input is a digit, `parse` never returns the error result: the maximal
run of digits and `.` from there is handed to `std::stod`, which converts its longest
prefix that is a decimal number (the subject sequence), and `parse` returns that number
(or `std::stod` reports the value out of range).  The subject sequences of `01`, `1.`
and `1.2.3` are `01`, `1.` and `1.2`. -/
theorem number_token_not_validated (conv : List Char → Option Nat) (json : List Char) (c : Char)
    (h : json[skipWhitespace json 0]? = some c) (hd : isdigit c = true) :
    parse conv json ≠ .ok none
      ∧ (∃ subject,
          stodSubject ((json.drop (skipWhitespace json 0)).take
              (numberRun (json.drop (skipWhitespace json 0)))) = some subject
          ∧ parse conv json
              = match conv subject with
                | some v => .ok (some (.number v))
                | none => .error .outOfRange)
      ∧ stodSubject ['0', '1'] = some ['0', '1']
      ∧ stodSubject ['1', '.'] = some ['1', '.']
      ∧ stodSubject ['1', '.', '2', '.', '3'] = some ['1', '.', '2'] := by
  obtain ⟨subject, hsub, hparse⟩ := parse_leading_digit conv json c h hd
  refine ⟨?_, ⟨subject, hsub, hparse⟩, by decide, by decide, by decide⟩
  rw [hparse]
  cases conv subject <;> simp

/-- C9, at the input `1.2.3` with a conversion that yields the bit pattern 7. -/
theorem number_token_not_validated_witness :
    parse (fun _ => some 7) ['1', '.', '2', '.', '3'] ≠ .ok none :=
  (number_token_not_validated (fun _ => some 7) ['1', '.', '2', '.', '3'] '1' rfl rfl).1

/-! ## Separators -/

/-- C6 (as stated, refuted): on the input `[1,2,]` `parse` does not return the error result, whatever
the floating-point conversion does. -/
theorem trailing_comma_not_rejected :
    ¬ ∃ conv, parse conv ['[', '1', ',', '2', ',', ']'] = .ok none := by
  rintro ⟨conv, h⟩
  cases h1 : conv ['1'] <;> cases h2 : conv ['2'] <;>
  simp [parse, parseValue, parseArrayLoop, parseNumber, stod, stodSubject, h1, h2,
    skipWhitespace, spaceRun, numberRun, charAt, isdigit, isspace] at h

/-- C6 (amended): a `,` that is followed, after optional whitespace, by the closing `]` or `}` is
accepted.  In the loop of `parseArray`, when an element has been read and the next
significant character is a `,` followed after whitespace by `]`, the array is closed
with the elements read so far and `pos` is left behind the `]`; likewise in the loop of
`parseObject` with `}`.  So `[1,2,]` parses to the array of 1 and 2 and `{"a":1,}` to
the object with the single entry `a`. -/
theorem trailing_comma_accepted (conv : List Char → Option Nat) (json : List Char)
    (fuel k : Nat) :
    (∀ pos arr c v p1, json[pos]? = some c → c ≠ ']' →
        parseValue conv json fuel pos = .ok (some v, p1) →
        json[skipWhitespace json p1]? = some ',' →
        json[skipWhitespace json (skipWhitespace json p1 + 1)]? = some ']' →
        parseArrayLoop json (parseValue conv json fuel) (k + 2) pos arr
          = .ok (some (.array (arr ++ [v])),
              skipWhitespace json (skipWhitespace json p1 + 1) + 1))
      ∧ (∀ pos obj c value p4, json[pos]? = some c → c ≠ '}' →
        parseValue conv json fuel
            (skipWhitespace json (skipWhitespace json (parseString json pos).2 + 1))
          = .ok (value, p4) →
        json[skipWhitespace json p4]? = some ',' →
        json[skipWhitespace json (skipWhitespace json p4 + 1)]? = some '}' →
        parseObjectLoop json (parseValue conv json fuel) (k + 2) pos obj
          = .ok (some (.object (JsonObject.add obj (parseString json pos).1 value)),
              skipWhitespace json (skipWhitespace json p4 + 1) + 1))
      ∧ (∀ a b, conv ['1'] = some a → conv ['2'] = some b →
        parse conv ['[', '1', ',', '2', ',', ']'] = .ok (some (.array [.number a, .number b])))
      ∧ (∀ a, conv ['1'] = some a →
        parse conv ['{', '"', 'a', '"', ':', '1', ',', '}']
          = .ok (some (.object [(['a'], some (.number a))]))) := by
  refine ⟨?_, ?_, ?_, ?_⟩
  · intro pos arr c v p1 hc hne hv hcomma hclose
    rw [parseArrayLoop, hc]
    simp only [hne, if_false, hv, hcomma, if_true]
    rw [parseArrayLoop, hclose]
    simp
  · intro pos obj c value p4 hc hne hv hcomma hclose
    have hch : charAt json (skipWhitespace json p4) = .ok ',' := by simp [charAt, hcomma]
    rw [parseObjectLoop, hc]
    simp only [hne, if_false, hv, hch, if_true]
    rw [parseObjectLoop, hclose]
    simp
  · intro a b h1 h2
    simp [parse, parseValue, parseArrayLoop, parseNumber, stod, stodSubject, h1, h2,
      skipWhitespace, spaceRun, numberRun, charAt, isdigit, isspace]
  · intro a h1
    simp [parse, parseValue, parseObjectLoop, parseNumber, stod, stodSubject, h1,
      skipWhitespace, spaceRun, numberRun, charAt, isdigit, isspace, parseString, stringLoop,
      JsonObject.add]

/-- C6, at the input `[true,]`: the loop of `parseArray`, entered at the `t`, closes the array after
the trailing comma. -/
theorem trailing_comma_accepted_witness :
    parseArrayLoop ['[', 't', 'r', 'u', 'e', ',', ']']
        (parseValue (fun _ => none) ['[', 't', 'r', 'u', 'e', ',', ']'] 1) 2 1 []
      = .ok (some (.array [.bool true]), 7) :=
  (trailing_comma_accepted (fun _ => none) ['[', 't', 'r', 'u', 'e', ',', ']'] 1 0).1
    1 [] 't' (.bool true) 5 rfl (by decide) rfl rfl rfl

/-! ## The round trip: auxiliary facts -/

theorem length_printIndent (n : Nat) : (printIndent n).length = 2 * n := by
  induction n with
  | zero => rfl
  | succ n ih => simp [printIndent, ih]; omega

theorem isspace_printIndent (n : Nat) : ∀ d ∈ printIndent n, isspace d = true := by
  induction n with
  | zero => simp [printIndent]
  | succ n ih =>
    intro d hd
    simp only [printIndent, List.mem_cons] at hd
    rcases hd with rfl | rfl | hd
    · decide
    · decide
    · exact ih d hd

theorem spaceRun_run (ws : List Char) (hws : ∀ d ∈ ws, isspace d = true) (c : Char)
    (r : List Char) (hc : isspace c = false) : spaceRun (ws ++ c :: r) = ws.length := by
  induction ws with
  | nil => simp [spaceRun, hc]
  | cons w ws ih =>
    have hw := hws w (List.mem_cons_self _ _)
    have := ih (fun d hd => hws d (List.mem_cons_of_mem _ hd))
    simp [spaceRun, hw, this]

theorem skipWhitespace_run {json : List Char} {p : Nat} (ws : List Char) {c : Char}
    {r : List Char} (h : json.drop p = ws ++ c :: r) (hws : ∀ d ∈ ws, isspace d = true)
    (hc : isspace c = false) : skipWhitespace json p = p + ws.length := by
  simp [skipWhitespace, h, spaceRun_run ws hws c r hc]

theorem skipWhitespace_step {json : List Char} {p : Nat} {c : Char} {r : List Char}
    (h : json.drop p = c :: r) (hc : isspace c = true) :
    skipWhitespace json p = skipWhitespace json (p + 1) := by
  simp [skipWhitespace, h, drop_succ_of_drop h, spaceRun, hc]
  omega

theorem add_length_le_of_drop {json : List Char} {p : Nat} {a b : List Char}
    (h : json.drop p = a ++ b) (ha : a ≠ []) : p + a.length ≤ json.length := by
  have h1 := congrArg List.length h
  simp only [List.length_drop, List.length_append] at h1
  have h2 : 0 < a.length := List.length_pos.mpr ha
  omega

theorem numberRun_run (a : List Char) (ha : ∀ d ∈ a, isdigit d = true ∨ d = '.')
    (rest : List Char) (hr : Follow rest) : numberRun (a ++ rest) = a.length := by
  induction a with
  | nil =>
    cases rest with
    | nil => rfl
    | cons d r =>
      obtain ⟨h1, h2⟩ := hr d r rfl
      simp [numberRun, h1, h2]
  | cons d a ih =>
    have hd := ha d (List.mem_cons_self _ _)
    have := ih (fun e he => ha e (List.mem_cons_of_mem _ he))
    have hd' : (isdigit d || decide (d = '.')) = true := by
      rcases hd with hd | hd <;> simp [hd]
    simp [numberRun, hd', this]

theorem JsonObject.add_of_not_mem (obj : List (List Char × Option JsonValue)) (key : List Char)
    (value : Option JsonValue) (h : key ∉ JsonValue.keys obj) :
    JsonObject.add obj key value = obj ++ [(key, value)] := by
  induction obj with
  | nil => rfl
  | cons e obj ih =>
    obtain ⟨k, v⟩ := e
    simp only [JsonValue.keys, List.map_cons, List.mem_cons, not_or] at h
    have hk : k ≠ key := fun hk => h.1 hk.symm
    have := ih (by simpa [JsonValue.keys] using h.2)
    simp [JsonObject.add, hk, this]

/-! ## The round trip: leaves -/

theorem valueReadsBack_string (conv : List Char → Option Nat) (fmt : Nat → List Char)
    (s : List Char) (h : QuoteFree s) : ValueReadsBack conv fmt (.string s) := by
  intro n
  refine ⟨'"' :: s ++ ['"'], rfl, ⟨'"', s ++ ['"'], rfl, by decide, by decide, by decide⟩, ?_⟩
  intro json pos rest fuel hdrop _ hfuel
  obtain ⟨f, rfl⟩ : ∃ f, fuel = f + 1 := ⟨fuel - 1, by simp at hfuel; omega⟩
  have hdrop' : json.drop pos = '"' :: (s ++ '"' :: rest) := by simpa using hdrop
  rw [parseValue_string conv f hdrop', stringLoop_run_quote s h]
  simp
  omega

theorem valueReadsBack_bool (conv : List Char → Option Nat) (fmt : Nat → List Char)
    (b : Bool) : ValueReadsBack conv fmt (.bool b) := by
  intro n
  cases b with
  | true =>
    refine ⟨['t', 'r', 'u', 'e'], rfl, ⟨'t', _, rfl, by decide, by decide, by decide⟩, ?_⟩
    intro json pos rest fuel hdrop _ hfuel
    obtain ⟨f, rfl⟩ : ∃ f, fuel = f + 1 := ⟨fuel - 1, by simp at hfuel; omega⟩
    have hdrop' : json.drop pos = 't' :: ('r' :: 'u' :: 'e' :: rest) := by simpa using hdrop
    have hs : skipWhitespace json pos = pos := skipWhitespace_of_drop_cons hdrop' (by decide)
    have hlen := add_length_le_of_drop hdrop (by simp)
    simp only [List.length_cons, List.length_nil] at hlen
    simp [parseValue, hs, getElem?_of_drop hdrop', parseBool, hdrop, hlen]
  | false =>
    refine ⟨['f', 'a', 'l', 's', 'e'], rfl, ⟨'f', _, rfl, by decide, by decide, by decide⟩, ?_⟩
    intro json pos rest fuel hdrop _ hfuel
    obtain ⟨f, rfl⟩ : ∃ f, fuel = f + 1 := ⟨fuel - 1, by simp at hfuel; omega⟩
    have hdrop' : json.drop pos = 'f' :: ('a' :: 'l' :: 's' :: 'e' :: rest) := by
      simpa using hdrop
    have hs : skipWhitespace json pos = pos := skipWhitespace_of_drop_cons hdrop' (by decide)
    have hlen := add_length_le_of_drop hdrop (by simp)
    simp only [List.length_cons, List.length_nil] at hlen
    simp [parseValue, hs, getElem?_of_drop hdrop', parseBool, hdrop, hlen]

theorem valueReadsBack_null (conv : List Char → Option Nat) (fmt : Nat → List Char) :
    ValueReadsBack conv fmt .null := by
  intro n
  refine ⟨['n', 'u', 'l', 'l'], rfl, ⟨'n', _, rfl, by decide, by decide, by decide⟩, ?_⟩
  intro json pos rest fuel hdrop _ hfuel
  obtain ⟨f, rfl⟩ : ∃ f, fuel = f + 1 := ⟨fuel - 1, by simp at hfuel; omega⟩
  have hdrop' : json.drop pos = 'n' :: ('u' :: 'l' :: 'l' :: rest) := by simpa using hdrop
  have hs : skipWhitespace json pos = pos := skipWhitespace_of_drop_cons hdrop' (by decide)
  have hlen := add_length_le_of_drop hdrop (by simp)
  simp only [List.length_cons, List.length_nil] at hlen
  have hlt : ¬ json.length < pos := by omega
  simp [parseValue, hs, getElem?_of_drop hdrop', parseNull, hdrop, hlt]

theorem valueReadsBack_number (conv : List Char → Option Nat) (fmt : Nat → List Char)
    (x : Nat) (h : NumberReadsBack conv fmt x) : ValueReadsBack conv fmt (.number x) := by
  obtain ⟨c, cs, hfmt, hc, hcs, hstod⟩ := h
  intro n
  have hsp : isspace c = false := by
    rcases hc with hc | rfl
    · exact isdigit_not_space hc
    · decide
  have hb1 : c ≠ ']' := by
    rcases hc with hc | rfl
    · exact ne_of_isdigit hc _ (by decide)
    · decide
  have hb2 : c ≠ '}' := by
    rcases hc with hc | rfl
    · exact ne_of_isdigit hc _ (by decide)
    · decide
  refine ⟨c :: cs, by simp [printValue, hfmt], ⟨c, cs, rfl, hsp, hb1, hb2⟩, ?_⟩
  intro json pos rest fuel hdrop hrest hfuel
  obtain ⟨f, rfl⟩ : ∃ f, fuel = f + 1 := ⟨fuel - 1, by simp at hfuel; omega⟩
  have hdrop' : json.drop pos = c :: (cs ++ rest) := by simpa using hdrop
  have hs : skipWhitespace json pos = pos := skipWhitespace_of_drop_cons hdrop' hsp
  rcases hc with hc | rfl
  · have hall : ∀ d ∈ c :: cs, isdigit d = true ∨ d = '.' := by
      intro d hd
      rcases List.mem_cons.mp hd with rfl | hd
      · exact Or.inl hc
      · exact hcs d hd
    have hrun : numberRun (c :: (cs ++ rest)) = (c :: cs).length := by
      have := numberRun_run (c :: cs) hall rest hrest
      simpa using this
    have htake : (c :: (cs ++ rest)).take (c :: cs).length = c :: cs := by simp
    rw [parseValue_digit conv f (by rw [hs]; exact hdrop') hc, hs,
      parseNumber_digit conv hdrop' hc, hrun, htake, hstod]
  · have hrun : numberRun (cs ++ rest) = cs.length := numberRun_run cs hcs rest hrest
    have htake : ('-' :: (cs ++ rest)).take (cs.length + 1) = '-' :: cs := by simp
    have hsub : pos + 1 + cs.length - pos = cs.length + 1 := by omega
    simp [parseValue, hs, getElem?_of_drop hdrop', parseNumber, charAt, isdigit,
      drop_succ_of_drop hdrop', hrun, hdrop', hsub, htake, hstod]
    omega

/-! ## The round trip: arrays -/

theorem elementsReadBack_nil (conv : List Char → Option Nat) (fmt : Nat → List Char) :
    ElementsReadBack conv fmt [] := by
  intro n
  refine ⟨[], rfl, ?_⟩
  intro json p rest f k arr hdrop _ hk
  obtain ⟨k, rfl⟩ : ∃ j, k = j + 1 := ⟨k - 1, by omega⟩
  have hdrop' : json.drop p = printIndent n ++ ']' :: rest := by simpa using hdrop
  have hs : skipWhitespace json p = p + (printIndent n).length :=
    skipWhitespace_run _ hdrop' (isspace_printIndent n) (by decide)
  have hget : json[p + (printIndent n).length]? = some ']' :=
    getElem?_of_drop (drop_add_of_drop _ hdrop')
  rw [hs, parseArrayLoop, hget]
  simp

theorem elementsReadBack_cons (conv : List Char → Option Nat) (fmt : Nat → List Char)
    (v : JsonValue) (vs : List JsonValue) (hv : ValueReadsBack conv fmt v)
    (hvs : ElementsReadBack conv fmt vs) : ElementsReadBack conv fmt (v :: vs) := by
  intro n
  obtain ⟨t, ht, ⟨c, r, rfl, hsp, hb, _⟩, hparse⟩ := hv (n + 1)
  obtain ⟨body, hbody, hloop⟩ := hvs n
  refine ⟨printIndent (n + 1) ++ (c :: r) ++ (if vs.isEmpty then [] else [',']) ++ '\n' :: body,
    by simp [printElements, ht, hbody], ?_⟩
  intro json p rest f k arr hdrop hf hk
  obtain ⟨k, rfl⟩ : ∃ j, k = j + 1 := ⟨k - 1, by omega⟩
  -- the first element starts behind the indentation
  have hdrop1 : json.drop p = printIndent (n + 1) ++ c :: (r ++ ((if vs.isEmpty then [] else [','])
      ++ '\n' :: (body ++ printIndent n ++ ']' :: rest))) := by
    simpa using hdrop
  have hs : skipWhitespace json p = p + (printIndent (n + 1)).length :=
    skipWhitespace_run _ hdrop1 (isspace_printIndent _) hsp
  have hdropq : json.drop (p + (printIndent (n + 1)).length)
      = (c :: r) ++ ((if vs.isEmpty then [] else [','])
          ++ '\n' :: (body ++ printIndent n ++ ']' :: rest)) := by
    simpa using drop_add_of_drop _ hdrop1
  have hfollow : Follow ((if vs.isEmpty then [] else [','])
      ++ '\n' :: (body ++ printIndent n ++ ']' :: rest)) := by
    intro d r' hd
    by_cases he : vs.isEmpty
    · simp only [he, if_true, List.nil_append, List.cons.injEq] at hd
      obtain ⟨rfl, _⟩ := hd
      exact ⟨by decide, by decide⟩
    · simp only [he, if_false, List.cons_append, List.nil_append, List.cons.injEq] at hd
      obtain ⟨rfl, _⟩ := hd
      exact ⟨by decide, by decide⟩
  have hlen : (printIndent (n + 1) ++ (c :: r) ++ (if vs.isEmpty then [] else [','])
      ++ '\n' :: body ++ printIndent n).length
        = (printIndent (n + 1)).length + (c :: r).length
          + (if vs.isEmpty then ([] : List Char) else [',']).length + 1
          + (body ++ printIndent n).length := by
    simp only [List.length_append, List.length_cons]
    omega
  have hpv := hparse json (p + (printIndent (n + 1)).length) _ f hdropq hfollow (by omega)
  have hdrop2 := drop_add_of_drop _ hdropq
  have hget : json[p + (printIndent (n + 1)).length]? = some c :=
    getElem?_of_drop (by simpa using hdropq)
  rw [hs, parseArrayLoop, hget]
  simp only [hb, if_false, hpv]
  by_cases he : vs.isEmpty
  · -- last element: the whitespace before the closing bracket is skipped, no comma follows
    have hvs0 : vs = [] := List.isEmpty_iff.mp he
    subst hvs0
    have hbody0 : body = [] := by simpa [printElements] using hbody.symm
    subst hbody0
    simp only [List.isEmpty_nil, if_true, List.nil_append] at hdrop2 hlen
    have hstep := skipWhitespace_step hdrop2 (by decide)
    have hdrop3 := drop_succ_of_drop hdrop2
    have hs3 : skipWhitespace json (p + (printIndent (n + 1)).length + (c :: r).length + 1)
        = p + (printIndent (n + 1)).length + (c :: r).length + 1 + (printIndent n).length :=
      skipWhitespace_run _ hdrop3 (isspace_printIndent n) (by decide)
    have hget3 : json[p + (printIndent (n + 1)).length + (c :: r).length + 1
        + (printIndent n).length]? = some ']' :=
      getElem?_of_drop (drop_add_of_drop _ hdrop3)
    have hnc : ¬ json[skipWhitespace json (p + (printIndent (n + 1)).length + (c :: r).length)]?
        = some ',' := by
      rw [hstep, hs3, hget3]; simp
    simp only [hnc, if_false]
    rw [hstep, hloop json _ rest f k _ (by simpa using hdrop3) (by simp at hf ⊢; omega)
      (by simp at hk ⊢; omega)]
    simp only [hlen, List.isEmpty_nil, if_true, List.nil_append, List.length_nil,
      List.append_assoc, List.singleton_append]
    congr 2
    simp only [List.length_append, List.length_cons, List.length_nil]
    omega
  · -- a comma follows: it is skipped together with the whitespace behind it
    have hsep : (if vs.isEmpty = true then ([] : List Char) else [',']) = [','] := by simp [he]
    rw [hsep] at hdrop2 hlen hf hk
    have hdrop2' : json.drop (p + (printIndent (n + 1)).length + (c :: r).length)
        = ',' :: '\n' :: (body ++ printIndent n ++ ']' :: rest) := by simpa using hdrop2
    have hs2 : skipWhitespace json (p + (printIndent (n + 1)).length + (c :: r).length)
        = p + (printIndent (n + 1)).length + (c :: r).length :=
      skipWhitespace_of_drop_cons hdrop2' (by decide)
    have hget2 := getElem?_of_drop hdrop2'
    have hdrop3 := drop_succ_of_drop hdrop2'
    have hstep := skipWhitespace_step hdrop3 (by decide)
    have hdrop4 := drop_succ_of_drop hdrop3
    rw [hs2]
    simp only [hget2, if_true]
    rw [hstep, hloop json _ rest f k _ hdrop4 (by rw [hlen] at hf; omega)
      (by rw [hlen] at hk; omega)]
    rw [hsep, hlen]
    simp only [List.append_assoc, List.singleton_append]
    congr 2
    simp only [List.length_append, List.length_cons, List.length_nil]
    omega

theorem valueReadsBack_array (conv : List Char → Option Nat) (fmt : Nat → List Char)
    (vs : List JsonValue) (h : ElementsReadBack conv fmt vs) :
    ValueReadsBack conv fmt (.array vs) := by
  intro n
  obtain ⟨body, hbody, hloop⟩ := h n
  refine ⟨'[' :: '\n' :: body ++ printIndent n ++ [']'], by simp [printValue, hbody],
    ⟨'[', _, rfl, by decide, by decide, by decide⟩, ?_⟩
  intro json pos rest fuel hdrop _ hfuel
  obtain ⟨f, rfl⟩ : ∃ f, fuel = f + 1 := ⟨fuel - 1, by simp at hfuel; omega⟩
  have hdrop0 : json.drop pos = '[' :: '\n' :: (body ++ printIndent n ++ ']' :: rest) := by
    simpa using hdrop
  have hs : skipWhitespace json pos = pos := skipWhitespace_of_drop_cons hdrop0 (by decide)
  have hdrop1 := drop_succ_of_drop hdrop0
  have hstep := skipWhitespace_step hdrop1 (by decide)
  have hdrop2 := drop_succ_of_drop hdrop1
  have hlen : ('[' :: '\n' :: body ++ printIndent n ++ [']']).length
      = (body ++ printIndent n).length + 3 := by
    simp only [List.length_append, List.length_cons, List.length_nil]
    omega
  rw [hlen] at hfuel
  have hrun := hloop json (pos + 1 + 1) rest f f [] hdrop2 (by omega) (by omega)
  have hne : ('[' : Char) ≠ '{' := by decide
  rw [parseValue]
  simp only [hs, getElem?_of_drop hdrop0, hne, if_false, if_true, hstep, hrun, hlen]
  simp only [List.nil_append]
  congr 2
  omega

/-! ## The round trip: objects -/

theorem membersReadBack_nil (conv : List Char → Option Nat) (fmt : Nat → List Char) :
    MembersReadBack conv fmt [] := by
  intro n
  refine ⟨[], rfl, ?_⟩
  intro json p rest f k obj hdrop _ hk _ _
  obtain ⟨k, rfl⟩ : ∃ j, k = j + 1 := ⟨k - 1, by omega⟩
  have hdrop' : json.drop p = printIndent n ++ '}' :: rest := by simpa using hdrop
  have hs : skipWhitespace json p = p + (printIndent n).length :=
    skipWhitespace_run _ hdrop' (isspace_printIndent n) (by decide)
  have hget : json[p + (printIndent n).length]? = some '}' :=
    getElem?_of_drop (drop_add_of_drop _ hdrop')
  rw [hs, parseObjectLoop, hget]
  simp

theorem membersReadBack_cons (conv : List Char → Option Nat) (fmt : Nat → List Char)
    (key : List Char) (v : JsonValue) (ms : List (List Char × Option JsonValue))
    (hkey : QuoteFree key) (hv : ValueReadsBack conv fmt v)
    (hms : MembersReadBack conv fmt ms) : MembersReadBack conv fmt ((key, some v) :: ms) := by
  intro n
  obtain ⟨t, ht, ⟨c, r, rfl, hsp, _, _⟩, hparse⟩ := hv (n + 1)
  obtain ⟨body, hbody, hloop⟩ := hms n
  refine ⟨printIndent (n + 1) ++ '"' :: key ++ '"' :: ':' :: ' ' :: (c :: r)
      ++ (if ms.isEmpty then [] else [',']) ++ '\n' :: body,
    by simp [printMembers, ht, hbody], ?_⟩
  intro json p rest f k obj hdrop hf hk hnodup hfresh
  obtain ⟨k, rfl⟩ : ∃ j, k = j + 1 := ⟨k - 1, by omega⟩
  have hlen : (printIndent (n + 1) ++ '"' :: key ++ '"' :: ':' :: ' ' :: (c :: r)
      ++ (if ms.isEmpty then [] else [',']) ++ '\n' :: body ++ printIndent n).length
        = (printIndent (n + 1)).length + 1 + key.length + 1 + 1 + 1 + (c :: r).length
          + (if ms.isEmpty then ([] : List Char) else [',']).length + 1
          + (body ++ printIndent n).length := by
    simp only [List.length_append, List.length_cons]
    omega
  rw [hlen] at hf hk
  -- the key starts behind the indentation
  have hdrop1 : json.drop p = printIndent (n + 1) ++ '"' :: (key ++ '"' :: ':' :: ' ' :: ((c :: r)
      ++ ((if ms.isEmpty then [] else [','])
        ++ '\n' :: (body ++ printIndent n ++ '}' :: rest)))) := by
    simpa using hdrop
  have hs : skipWhitespace json p = p + (printIndent (n + 1)).length :=
    skipWhitespace_run _ hdrop1 (isspace_printIndent _) (by decide)
  have hdropq := drop_add_of_drop _ hdrop1
  have hget := getElem?_of_drop hdropq
  have hdropk := drop_succ_of_drop hdropq
  have hps : parseString json (p + (printIndent (n + 1)).length)
      = (key, p + (printIndent (n + 1)).length + 1 + key.length + 1) := by
    simp [parseString, hdropk, stringLoop_run_quote key hkey]
  have hdropc := drop_succ_of_drop (drop_add_of_drop _ hdropk)
  have hs2 : skipWhitespace json (p + (printIndent (n + 1)).length + 1 + key.length + 1)
      = p + (printIndent (n + 1)).length + 1 + key.length + 1 :=
    skipWhitespace_of_drop_cons hdropc (by decide)
  have hdropb := drop_succ_of_drop hdropc
  have hs3 : skipWhitespace json (p + (printIndent (n + 1)).length + 1 + key.length + 1 + 1)
      = p + (printIndent (n + 1)).length + 1 + key.length + 1 + 1 + 1 := by
    have := skipWhitespace_run [' '] (c := c) (by simpa using hdropb) (by decide) hsp
    simpa using this
  have hdropv := drop_succ_of_drop hdropb
  have hfollow : Follow ((if ms.isEmpty then [] else [','])
      ++ '\n' :: (body ++ printIndent n ++ '}' :: rest)) := by
    intro d r' hd
    by_cases he : ms.isEmpty
    · simp only [he, if_true, List.nil_append, List.cons.injEq] at hd
      obtain ⟨rfl, _⟩ := hd
      exact ⟨by decide, by decide⟩
    · simp only [he, if_false, List.cons_append, List.nil_append, List.cons.injEq] at hd
      obtain ⟨rfl, _⟩ := hd
      exact ⟨by decide, by decide⟩
  have hpv := hparse json _ _ f hdropv hfollow (by omega)
  have hdropa := drop_add_of_drop _ hdropv
  have hkeyfresh : key ∉ JsonValue.keys obj :=
    hfresh key (by simp [JsonValue.keys])
  have hadd := JsonObject.add_of_not_mem obj key (some v) hkeyfresh
  have hnodup' : (JsonValue.keys ms).Nodup := by
    simp only [JsonValue.keys, List.map_cons, List.nodup_cons] at hnodup
    simpa [JsonValue.keys] using hnodup.2
  have hfresh' : ∀ key' ∈ JsonValue.keys ms,
      key' ∉ JsonValue.keys (obj ++ [(key, some v)]) := by
    intro key' hk' hmem
    simp only [JsonValue.keys, List.map_append, List.map_cons, List.map_nil, List.mem_append,
      List.mem_singleton] at hmem
    rcases hmem with hmem | rfl
    · exact hfresh key' (by simp only [JsonValue.keys, List.map_cons, List.mem_cons]; exact Or.inr hk') hmem
    · simp only [JsonValue.keys, List.map_cons, List.nodup_cons] at hnodup
      exact hnodup.1 hk'
  rw [hs, parseObjectLoop, hget]
  simp only [show ('"' : Char) ≠ '}' by decide, if_false, hps, hs2, hs3, hpv, hadd]
  by_cases he : ms.isEmpty
  · -- last entry: the whitespace before the closing brace is skipped, no comma follows
    have hms0 : ms = [] := List.isEmpty_iff.mp he
    subst hms0
    have hbody0 : body = [] := by simpa [printMembers] using hbody.symm
    subst hbody0
    simp only [List.isEmpty_nil, if_true, List.nil_append, List.length_nil] at hdropa hf hk
    have hstep := skipWhitespace_step hdropa (by decide)
    have hdrope := drop_succ_of_drop hdropa
    have hs5 := skipWhitespace_run _ hdrope (isspace_printIndent n) (by decide)
    have hget5 := getElem?_of_drop (drop_add_of_drop _ hdrope)
    have hch : charAt json (skipWhitespace json
        (p + (printIndent (n + 1)).length + 1 + key.length + 1 + 1 + 1 + (c :: r).length))
        = .ok '}' := by
      rw [hstep, hs5, charAt, hget5]
    simp only [hch, show ('}' : Char) ≠ ',' by decide, if_false]
    rw [hstep, hloop json _ rest f k _ (by simpa using hdrope) (by simp; omega) (by simp; omega)
      hnodup' hfresh']
    simp only [List.isEmpty_nil, if_true, List.nil_append, List.append_assoc,
      List.singleton_append]
    congr 2
    simp only [List.length_append, List.length_cons, List.length_nil]
    omega
  · -- a comma follows: it is skipped together with the whitespace behind it
    have hsep : (if ms.isEmpty = true then ([] : List Char) else [',']) = [','] := by simp [he]
    rw [hsep] at hdropa hf hk
    have hdropa' : json.drop
        (p + (printIndent (n + 1)).length + 1 + key.length + 1 + 1 + 1 + (c :: r).length)
        = ',' :: '\n' :: (body ++ printIndent n ++ '}' :: rest) := by simpa using hdropa
    have hs5 := skipWhitespace_of_drop_cons hdropa' (by decide)
    have hch : charAt json (skipWhitespace json
        (p + (printIndent (n + 1)).length + 1 + key.length + 1 + 1 + 1 + (c :: r).length))
        = .ok ',' := by
      rw [hs5, charAt, getElem?_of_drop hdropa']
    have hdrope := drop_succ_of_drop hdropa'
    have hstep := skipWhitespace_step hdrope (by decide)
    have hdropn := drop_succ_of_drop hdrope
    simp only [hch, if_true]
    rw [hs5, hstep, hloop json _ rest f k _ hdropn (by simp at hf ⊢; omega)
      (by simp at hk ⊢; omega) hnodup' hfresh']
    rw [hsep]
    simp only [List.append_assoc, List.singleton_append]
    congr 2
    simp only [List.length_append, List.length_cons, List.length_nil]
    omega

theorem valueReadsBack_object (conv : List Char → Option Nat) (fmt : Nat → List Char)
    (ms : List (List Char × Option JsonValue)) (h : MembersReadBack conv fmt ms)
    (hnodup : (JsonValue.keys ms).Nodup) : ValueReadsBack conv fmt (.object ms) := by
  intro n
  obtain ⟨body, hbody, hloop⟩ := h n
  refine ⟨'{' :: '\n' :: body ++ printIndent n ++ ['}'], by simp [printValue, hbody],
    ⟨'{', _, rfl, by decide, by decide, by decide⟩, ?_⟩
  intro json pos rest fuel hdrop _ hfuel
  obtain ⟨f, rfl⟩ : ∃ f, fuel = f + 1 := ⟨fuel - 1, by simp at hfuel; omega⟩
  have hdrop0 : json.drop pos = '{' :: '\n' :: (body ++ printIndent n ++ '}' :: rest) := by
    simpa using hdrop
  have hs : skipWhitespace json pos = pos := skipWhitespace_of_drop_cons hdrop0 (by decide)
  have hdrop1 := drop_succ_of_drop hdrop0
  have hstep := skipWhitespace_step hdrop1 (by decide)
  have hdrop2 := drop_succ_of_drop hdrop1
  have hlen : ('{' :: '\n' :: body ++ printIndent n ++ ['}']).length
      = (body ++ printIndent n).length + 3 := by
    simp only [List.length_append, List.length_cons, List.length_nil]
    omega
  rw [hlen] at hfuel
  have hrun := hloop json (pos + 1 + 1) rest f f [] hdrop2 (by omega) (by omega) hnodup
    (by simp [JsonValue.keys])
  rw [parseValue]
  simp only [hs, getElem?_of_drop hdrop0, if_true, hstep, hrun, hlen]
  simp only [List.nil_append]
  congr 2
  omega

/-! ## The round trip -/

mutual
theorem valueReadsBack (conv : List Char → Option Nat) (fmt : Nat → List Char) :
    ∀ v : JsonValue, Printable conv fmt v → ValueReadsBack conv fmt v
  | .number x, h => valueReadsBack_number conv fmt x (by simpa [Printable] using h)
  | .string s, h => valueReadsBack_string conv fmt s (by simpa [Printable] using h)
  | .bool b, _ => valueReadsBack_bool conv fmt b
  | .null, _ => valueReadsBack_null conv fmt
  | .array vs, h =>
    valueReadsBack_array conv fmt vs (elementsReadBack conv fmt vs (by simpa [Printable] using h))
  | .object ms, h =>
    have h' : PrintableMembers conv fmt ms ∧ (JsonValue.keys ms).Nodup := by
      simpa [Printable] using h
    valueReadsBack_object conv fmt ms (membersReadBack conv fmt ms h'.1) h'.2
theorem elementsReadBack (conv : List Char → Option Nat) (fmt : Nat → List Char) :
    ∀ vs : List JsonValue, PrintableElements conv fmt vs → ElementsReadBack conv fmt vs
  | [], _ => elementsReadBack_nil conv fmt
  | v :: vs, h =>
    have h' : Printable conv fmt v ∧ PrintableElements conv fmt vs := by
      simpa [PrintableElements] using h
    elementsReadBack_cons conv fmt v vs (valueReadsBack conv fmt v h'.1)
      (elementsReadBack conv fmt vs h'.2)
theorem membersReadBack (conv : List Char → Option Nat) (fmt : Nat → List Char) :
    ∀ ms : List (List Char × Option JsonValue),
      PrintableMembers conv fmt ms → MembersReadBack conv fmt ms
  | [], _ => membersReadBack_nil conv fmt
  | (key, some v) :: ms, h =>
    have h' : QuoteFree key ∧ Printable conv fmt v ∧ PrintableMembers conv fmt ms := by
      simpa [PrintableMembers] using h
    membersReadBack_cons conv fmt key v ms h'.1 (valueReadsBack conv fmt v h'.2.1)
      (membersReadBack conv fmt ms h'.2.2)
  | (_, none) :: _, h => absurd h (by simp [PrintableMembers])
end

/-- C1 (as stated, refuted): the string made of one double quote is printed as three double
quotes, which `parse` reads as the empty string; the round trip does not give the
tree back, whatever the floating-point conversions do. -/
theorem round_trip_fails_on_quote :
    ¬ ∃ conv fmt text, printValue fmt (.string ['"']) 0 = some text
        ∧ parse conv text = .ok (some (.string ['"'])) := by
  rintro ⟨conv, fmt, text, h1, h2⟩
  have ht : text = ['"', '"', '"'] := by simpa [printValue] using h1.symm
  subst ht
  have e : parse conv ['"', '"', '"'] = .ok (some (.string [])) := rfl
  rw [e] at h2
  simp at h2

/-- C1 (amended): round trip on the trees that are `Printable`: no string and no object key
holds a double quote or a backslash, no object holds a null child or two entries with
the same key, and every number is printed as a digit or `-` followed by digits and `.`
only, a text that `std::stod` converts back to the number.  For every such tree `v`
and every indent `n`, `printValue` emits a text and `parse` applied to that text
succeeds and returns `v`. -/
theorem round_trip (conv : List Char → Option Nat) (fmt : Nat → List Char) (v : JsonValue)
    (n : Nat) (h : Printable conv fmt v) :
    ∃ text, printValue fmt v n = some text ∧ parse conv text = .ok (some v) := by
  obtain ⟨t, ht, _, hparse⟩ := valueReadsBack conv fmt v h n
  refine ⟨t, ht, ?_⟩
  have hnil : Follow [] := fun d r hd => by simp at hd
  have := hparse t 0 [] (t.length + 2) (by simp) hnil (by omega)
  simp [parse, this]

/-- C1, at the object `{"a": [7, "x", true, null], "b": {}}` and indent 1, with
conversions that print the number as `7` and read `7` back. -/
theorem round_trip_witness :
    Printable (fun _ => some 7) (fun _ => ['7'])
        (.object [(['a'], some (.array [.number 7, .string ['x'], .bool true, .null])),
          (['b'], some (.object []))])
      ∧ ∃ text,
          printValue (fun _ => ['7'])
              (.object [(['a'], some (.array [.number 7, .string ['x'], .bool true, .null])),
                (['b'], some (.object []))]) 1 = some text
            ∧ parse (fun _ => some 7) text
              = .ok (some (.object
                  [(['a'], some (.array [.number 7, .string ['x'], .bool true, .null])),
                    (['b'], some (.object []))])) :=
  have hp : Printable (fun _ => some 7) (fun _ => ['7'])
      (.object [(['a'], some (.array [.number 7, .string ['x'], .bool true, .null])),
        (['b'], some (.object []))]) := by
    have hnum : NumberReadsBack (fun _ => some 7) (fun _ => ['7']) 7 :=
      ⟨'7', [], rfl, Or.inl (by decide), by simp, rfl⟩
    simp [Printable, PrintableMembers, PrintableElements, hnum, QuoteFree, JsonValue.keys]
  ⟨hp, round_trip _ _ _ 1 hp⟩

/-! ## Literals and dispatch -/

theorem add_le_length_of_take_drop {json : List Char} {p k : Nat} {l : List Char}
    (h : (json.drop p).take k = l) (hl : l.length = k) (hk : 0 < k) : p + k ≤ json.length := by
  have h1 := congrArg List.length h
  simp only [List.length_take, List.length_drop, hl] at h1
  omega

theorem parse_literal (conv : List Char → Option Nat) (json : List Char) (c : Char)
    (h : json[skipWhitespace json 0]? = some c) (hc : c = 't' ∨ c = 'f' ∨ c = 'n') :
    parse conv json
      = if (json.drop (skipWhitespace json 0)).take 4 = ['t', 'r', 'u', 'e'] then
          .ok (some (.bool true))
        else if (json.drop (skipWhitespace json 0)).take 5 = ['f', 'a', 'l', 's', 'e'] then
          .ok (some (.bool false))
        else if (json.drop (skipWhitespace json 0)).take 4 = ['n', 'u', 'l', 'l'] then
          .ok (some .null)
        else .ok none := by
  obtain ⟨hlt, hget⟩ := List.getElem?_eq_some_iff.mp h
  have hdrop : json.drop (skipWhitespace json 0)
      = c :: json.drop (skipWhitespace json 0 + 1) := by
    rw [← hget]; exact List.drop_eq_getElem_cons hlt
  have h4 : (skipWhitespace json 0 + 4 ≤ json.length
        ∧ (json.drop (skipWhitespace json 0)).take 4 = ['t', 'r', 'u', 'e'])
      ↔ (json.drop (skipWhitespace json 0)).take 4 = ['t', 'r', 'u', 'e'] :=
    ⟨fun hh => hh.2, fun hh => ⟨add_le_length_of_take_drop hh rfl (by omega), hh⟩⟩
  have h5 : (skipWhitespace json 0 + 5 ≤ json.length
        ∧ (json.drop (skipWhitespace json 0)).take 5 = ['f', 'a', 'l', 's', 'e'])
      ↔ (json.drop (skipWhitespace json 0)).take 5 = ['f', 'a', 'l', 's', 'e'] :=
    ⟨fun hh => hh.2, fun hh => ⟨add_le_length_of_take_drop hh rfl (by omega), hh⟩⟩
  have hnlt : ¬ json.length < skipWhitespace json 0 := by omega
  unfold parse
  rw [parseValue]
  simp only [h]
  rcases hc with rfl | rfl | rfl
  · have hn : ¬ (json.drop (skipWhitespace json 0)).take 4 = ['n', 'u', 'l', 'l'] := by
      rw [hdrop]; simp
    simp only [show ('t' : Char) ≠ '{' by decide, show ('t' : Char) ≠ '[' by decide,
      show ('t' : Char) ≠ '"' by decide, if_false, true_or, if_true, parseBool,
      h4, h5, hn]
    split_ifs <;> rfl
  · have hn : ¬ (json.drop (skipWhitespace json 0)).take 4 = ['n', 'u', 'l', 'l'] := by
      rw [hdrop]; simp
    simp only [show ('f' : Char) ≠ '{' by decide, show ('f' : Char) ≠ '[' by decide,
      show ('f' : Char) ≠ '"' by decide, if_false, or_true, if_true, parseBool,
      h4, h5, hn]
    split_ifs <;> rfl
  · have ht : ¬ (json.drop (skipWhitespace json 0)).take 4 = ['t', 'r', 'u', 'e'] := by
      rw [hdrop]; simp
    have hf : ¬ (json.drop (skipWhitespace json 0)).take 5 = ['f', 'a', 'l', 's', 'e'] := by
      rw [hdrop]; simp
    simp only [show ('n' : Char) ≠ '{' by decide, show ('n' : Char) ≠ '[' by decide,
      show ('n' : Char) ≠ '"' by decide, show ¬ (('n' : Char) = 't' ∨ ('n' : Char) = 'f') by decide,
      if_false, if_true, parseNull, hnlt, ht, hf]
    split_ifs <;> rfl

/-- C13: when the first character behind the leading whitespace is `t`, `f` or `n`, `parse` returns
`Bool(true)` exactly when the characters from there are `true`, `Bool(false)` exactly
when they are `false`, `Null` exactly when they are `null`, and the error result in
every other case. -/
theorem exact_literal_match (conv : List Char → Option Nat) (json : List Char) (c : Char)
    (h : json[skipWhitespace json 0]? = some c) (hc : c = 't' ∨ c = 'f' ∨ c = 'n') :
    (parse conv json = .ok (some (.bool true))
        ↔ (json.drop (skipWhitespace json 0)).take 4 = ['t', 'r', 'u', 'e'])
      ∧ (parse conv json = .ok (some (.bool false))
        ↔ (json.drop (skipWhitespace json 0)).take 5 = ['f', 'a', 'l', 's', 'e'])
      ∧ (parse conv json = .ok (some .null)
        ↔ (json.drop (skipWhitespace json 0)).take 4 = ['n', 'u', 'l', 'l'])
      ∧ ((json.drop (skipWhitespace json 0)).take 4 ≠ ['t', 'r', 'u', 'e'] →
          (json.drop (skipWhitespace json 0)).take 5 ≠ ['f', 'a', 'l', 's', 'e'] →
          (json.drop (skipWhitespace json 0)).take 4 ≠ ['n', 'u', 'l', 'l'] →
          parse conv json = .ok none) := by
  obtain ⟨hlt, hget⟩ := List.getElem?_eq_some_iff.mp h
  have hdrop : json.drop (skipWhitespace json 0)
      = c :: json.drop (skipWhitespace json 0 + 1) := by
    rw [← hget]; exact List.drop_eq_getElem_cons hlt
  rw [parse_literal conv json c h hc, hdrop]
  refine ⟨?_, ?_, ?_, ?_⟩
  · split_ifs with h1 h2 h3 <;> simp_all
  · split_ifs with h1 h2 h3 <;> simp_all
  · split_ifs with h1 h2 h3 <;> simp_all
  · intro h1 h2 h3
    simp only [h1, h2, h3, if_false]

/-- C13, at the input `nul`: a partial literal gives the error result. -/
theorem exact_literal_match_witness : parse (fun _ => none) ['n', 'u', 'l'] = .ok none :=
  (exact_literal_match (fun _ => none) ['n', 'u', 'l'] 'n' rfl (Or.inr (Or.inr rfl))).2.2.2
    (by decide) (by decide) (by decide)

/-- C14 (as stated, refuted): a form feed is no space, tab, newline or carriage return, yet on the
input form feed, `null` the parser skips it and returns `Null`, not the error result. -/
theorem form_feed_is_skipped :
    ¬ ∃ conv, parse conv ['\x0c', 'n', 'u', 'l', 'l'] = .ok none := by
  rintro ⟨conv, h⟩
  have e : parse conv ['\x0c', 'n', 'u', 'l', 'l'] = .ok (some .null) := rfl
  rw [e] at h
  simp at h

theorem spaceRun_spec (l : List Char) :
    (∀ i c, i < spaceRun l → l[i]? = some c → isspace c = true)
      ∧ ∀ c, l[spaceRun l]? = some c → isspace c = false := by
  induction l with
  | nil => simp [spaceRun]
  | cons d l ih =>
    by_cases hd : isspace d = true
    · have hr : spaceRun (d :: l) = spaceRun l + 1 := by simp [spaceRun, hd]
      rw [hr]
      refine ⟨?_, ?_⟩
      · intro i c hi hc
        cases i with
        | zero => simp at hc; rw [← hc]; exact hd
        | succ i => exact ih.1 i c (by omega) (by simpa using hc)
      · intro c hc
        exact ih.2 c (by simpa using hc)
    · have hr : spaceRun (d :: l) = 0 := by simp [spaceRun, hd]
      rw [hr]
      refine ⟨fun i c hi => absurd hi (by omega), ?_⟩
      intro c hc
      simp at hc
      rw [← hc]
      simpa using hd

/-- C14 (amended): after the leading whitespace as `isspace` classifies it (space, `\t`, `\n`, `\v`,
`\f`, `\r`) has been skipped, if the input is exhausted or the next character is not
one of `{`, `[`, `"`, `t`, `f`, `n`, `-` or a decimal digit, `parse` returns the error
result. -/
theorem dispatch_rejects (conv : List Char → Option Nat) (json : List Char)
    (h : ∀ c, json[skipWhitespace json 0]? = some c →
      c ≠ '{' ∧ c ≠ '[' ∧ c ≠ '"' ∧ c ≠ 't' ∧ c ≠ 'f' ∧ c ≠ 'n' ∧ c ≠ '-' ∧ isdigit c = false) :
    parse conv json = .ok none
      ∧ (∀ i c, i < skipWhitespace json 0 → json[i]? = some c → isspace c = true)
      ∧ (∀ c, json[skipWhitespace json 0]? = some c → isspace c = false)
      ∧ ∀ c, isspace c = true
          ↔ c = ' ' ∨ c = '\t' ∨ c = '\n' ∨ c = '\x0b' ∨ c = '\x0c' ∨ c = '\r' := by
  have hsk : skipWhitespace json 0 = spaceRun json := by simp [skipWhitespace]
  refine ⟨?_, ?_, ?_, ?_⟩
  · unfold parse
    rw [parseValue]
    cases hc : json[skipWhitespace json 0]? with
    | none => simp
    | some c =>
      obtain ⟨h1, h2, h3, h4, h5, h6, h7, h8⟩ := h c hc
      simp [h1, h2, h3, h4, h5, h6, h7, h8]
  · rw [hsk]; exact (spaceRun_spec json).1
  · rw [hsk]; exact (spaceRun_spec json).2
  · intro c
    simp [isspace, or_assoc]

/-- C14, at the input vertical tab, `?`: the tab is skipped and `?` starts no value. -/
theorem dispatch_rejects_witness : parse (fun _ => none) ['\x0b', '?'] = .ok none :=
  (dispatch_rejects (fun _ => none) ['\x0b', '?'] (by
    intro c hc
    have : c = '?' := by
      have e : (['\x0b', '?'] : List Char)[skipWhitespace ['\x0b', '?'] 0]? = some '?' := rfl
      rw [e] at hc
      exact (Option.some.inj hc).symm
    subst this
    decide)).1

/-! ## The printer -/

/-- C16 (as stated, refuted): the empty array at indent 0 is not printed as the two characters
`[]`, whatever the number format. -/
theorem empty_array_not_compact : ¬ ∃ fmt, printValue fmt (.array []) 0 = some ['[', ']'] := by
  rintro ⟨fmt, h⟩
  simp [printValue, printElements, printIndent] at h

/-- C16 (amended): for every indent `n`, `printValue` emits for an empty array `[`, a newline,
`n` indentation units and `]`, and for an empty object `{`, a newline, `n` indentation
units and `}`; at indent 0 the empty array is printed as the three characters
`[`, newline, `]`. -/
theorem empty_container_text (fmt : Nat → List Char) (n : Nat) :
    printValue fmt (.array []) n = some ('[' :: '\n' :: printIndent n ++ [']'])
      ∧ printValue fmt (.object []) n = some ('{' :: '\n' :: printIndent n ++ ['}'])
      ∧ printValue fmt (.array []) 0 = some ['[', '\n', ']']
      ∧ printValue fmt (.object []) 0 = some ['{', '\n', '}'] := by
  simp [printValue, printElements, printMembers, printIndent]

/-- C17 (as stated, refuted): the string made of one double quote is not printed with the quote
escaped; the text is three double quotes. -/
theorem quote_not_escaped :
    ¬ ∃ fmt, printValue fmt (.string ['"']) 0 = some ['"', '\\', '"', '"'] := by
  rintro ⟨fmt, h⟩
  simp [printValue] at h

/-- C17 (amended): strings are written as they are.  For every string `s` the text `printValue`
emits for `String(s)` is a `"`, the characters of `s` unchanged, and a `"`; and the
line of an object entry with key `s` holds, behind the indentation, a `"`, the
characters of `s` unchanged, a `"`, a colon, a space and the text of the value. -/
theorem string_text_verbatim (fmt : Nat → List Char) (s : List Char) (n : Nat) :
    printValue fmt (.string s) n = some ('"' :: s ++ ['"'])
      ∧ ∀ v rest t body, printValue fmt v (n + 1) = some t →
          printMembers fmt rest n = some body →
          printMembers fmt ((s, some v) :: rest) n
            = some (printIndent (n + 1) ++ ('"' :: s ++ '"' :: ':' :: ' ' :: t)
                ++ (if rest.isEmpty then [] else [',']) ++ '\n' :: body) := by
  refine ⟨rfl, ?_⟩
  intro v rest t body ht hbody
  simp [printMembers, ht, hbody]

theorem printIndent_eq_indentUnits (n : Nat) : printIndent n = indentUnits n := by
  induction n with
  | zero => rfl
  | succ n ih => simp [printIndent, indentUnits, List.replicate_succ, ih]

theorem printElements_lines (fmt : Nat → List Char) (n : Nat) (vs : List JsonValue)
    (ts : List (List Char))
    (h : List.Forall₂ (fun v t => printValue fmt v (n + 1) = some t) vs ts) (i k : Nat)
    (hk : k = i + ts.length) :
    printElements fmt vs n = some ((ts.enumFrom i).map (childLine n k)).flatten := by
  induction h generalizing i with
  | nil => simp [printElements]
  | @cons v t vs ts hv hrest ih =>
    have hlen : vs.length = ts.length := hrest.length_eq
    have hemp : vs.isEmpty = true ↔ ¬ i + 1 < k := by
      rw [List.isEmpty_iff, ← List.length_eq_zero, hlen]
      simp only [List.length_cons] at hk
      omega
    have ih' := ih (i + 1) (by simp only [List.length_cons] at hk; omega)
    by_cases he : vs.isEmpty = true
    · have hlt : ¬ i + 1 < k := hemp.mp he
      simp [printElements, hv, ih', he, childLine, hlt, printIndent_eq_indentUnits]
    · have hlt : i + 1 < k := by
        by_contra hc
        exact he (hemp.mpr hc)
      simp [printElements, hv, ih', he, childLine, hlt, printIndent_eq_indentUnits]

theorem printMembers_lines (fmt : Nat → List Char) (n : Nat)
    (ms : List (List Char × Option JsonValue)) (ts : List (List Char))
    (h : List.Forall₂ (fun m t => ∃ v, m.2 = some v ∧ printValue fmt v (n + 1) = some t) ms ts)
    (i k : Nat) (hk : k = i + ts.length) :
    printMembers fmt ms n
      = some (((List.zipWith keyedChild (JsonValue.keys ms) ts).enumFrom i).map
          (childLine n k)).flatten := by
  induction h generalizing i with
  | nil => simp [printMembers, JsonValue.keys]
  | @cons m t ms ts hm hrest ih =>
    obtain ⟨key, value⟩ := m
    obtain ⟨v, hv1, hv⟩ := hm
    simp only at hv1
    subst hv1
    have hlen : ms.length = ts.length := hrest.length_eq
    have hemp : ms.isEmpty = true ↔ ¬ i + 1 < k := by
      rw [List.isEmpty_iff, ← List.length_eq_zero, hlen]
      simp only [List.length_cons] at hk
      omega
    have ih' := ih (i + 1) (by simp only [List.length_cons] at hk; omega)
    by_cases he : ms.isEmpty = true
    · have hlt : ¬ i + 1 < k := hemp.mp he
      simp [printMembers, hv, ih', he, childLine, hlt, printIndent_eq_indentUnits,
        JsonValue.keys, keyedChild]
    · have hlt : i + 1 < k := by
        by_contra hc
        exact he (hemp.mpr hc)
      simp [printMembers, hv, ih', he, childLine, hlt, printIndent_eq_indentUnits,
        JsonValue.keys, keyedChild]

/-- C18: for an array whose children are printed at level `n + 1` as the texts `ts`, `printValue`
at level `n` emits `[` and a newline, then for each child its line (`n + 1`
indentation units of two spaces, the child, a `,` unless it is the last child, a
newline), then `n` indentation units and `]`; and likewise for an object with `{`,
`}`, each child standing behind its quoted key, a colon and a space. -/
theorem pretty_print_layout (fmt : Nat → List Char) (n : Nat) :
    (∀ vs ts, List.Forall₂ (fun v t => printValue fmt v (n + 1) = some t) vs ts →
        printValue fmt (.array vs) n = some (containerLayout '[' ']' n ts))
      ∧ (∀ ms ts,
        List.Forall₂ (fun m t => ∃ v, m.2 = some v ∧ printValue fmt v (n + 1) = some t) ms ts →
        printValue fmt (.object ms) n
          = some (containerLayout '{' '}' n (List.zipWith keyedChild (JsonValue.keys ms) ts)))
      ∧ indentUnits n = List.replicate (2 * n) ' ' := by
  refine ⟨?_, ?_, ?_⟩
  · intro vs ts h
    have := printElements_lines fmt n vs ts h 0 ts.length (by omega)
    simp [printValue, this, containerLayout, List.enum, printIndent_eq_indentUnits]
  · intro ms ts h
    have hlen : ms.length = ts.length := h.length_eq
    have := printMembers_lines fmt n ms ts h 0 ts.length (by omega)
    simp [printValue, this, containerLayout, List.enum, printIndent_eq_indentUnits,
      JsonValue.keys, hlen]
  · induction n with
    | zero => rfl
    | succ n ih =>
      have : 2 * (n + 1) = 2 * n + 1 + 1 := by omega
      rw [this, List.replicate_succ, List.replicate_succ, ← ih]
      simp [indentUnits, List.replicate_succ]

/-- C18, at the array of `true` and the object with the entry `a` holding `null`, level 0. -/
theorem pretty_print_layout_witness :
    printValue (fun _ => []) (.array [.bool true, .object [(['a'], some .null)]]) 0
      = some "[\n  true,\n  \x7b\n    \"a\": null\n  \x7d\n]".toList :=
  (pretty_print_layout (fun _ => []) 0).1 [.bool true, .object [(['a'], some .null)]]
    ["true".toList, "\x7b\n    \"a\": null\n  \x7d".toList]
    (List.Forall₂.cons rfl (List.Forall₂.cons rfl List.Forall₂.nil))

/-! ## Lookup in a JsonObject -/

theorem find?_add (members : List (List Char × Option JsonValue)) (key k : List Char)
    (value : Option JsonValue) :
    ((JsonObject.add members key value).find? (fun e => decide (e.1 = k))).map Prod.snd
      = if key = k then some value
        else (members.find? (fun e => decide (e.1 = k))).map Prod.snd := by
  induction members with
  | nil =>
    by_cases h : key = k <;> simp [JsonObject.add, List.find?, h]
  | cons e members ih =>
    obtain ⟨k', v'⟩ := e
    by_cases h1 : k' = key
    · subst h1
      by_cases h2 : k' = k <;> simp [JsonObject.add, List.find?, h2]
    · by_cases h2 : k' = k
      · subst h2
        have h3 : ¬ key = k' := fun h => h1 h.symm
        simp [JsonObject.add, List.find?, h1, h3]
      · simp [JsonObject.add, List.find?, h1, h2, ih]

theorem find?_remove (members : List (List Char × Option JsonValue)) (key k : List Char) :
    ((JsonObject.remove members key).find? (fun e => decide (e.1 = k))).map Prod.snd
      = if key = k then none
        else (members.find? (fun e => decide (e.1 = k))).map Prod.snd := by
  induction members with
  | nil => by_cases h : key = k <;> simp [JsonObject.remove, h]
  | cons e members ih =>
    obtain ⟨k', v'⟩ := e
    simp only [JsonObject.remove] at ih
    by_cases h1 : k' = key
    · subst h1
      by_cases h2 : k' = k
      · simp [JsonObject.remove, List.filter, h2]
      · simpa [JsonObject.remove, List.filter, List.find?, h2] using ih
    · by_cases h2 : k' = k
      · subst h2
        have h3 : ¬ key = k' := fun h => h1 h.symm
        simp [JsonObject.remove, List.filter, List.find?, h1, h3]
      · simpa [JsonObject.remove, List.filter, List.find?, h1, h2] using ih

theorem count_eq_zero_iff (members : List (List Char × Option JsonValue)) (k : List Char) :
    JsonObject.count members k = 0
      ↔ (members.find? (fun e => decide (e.1 = k))).map Prod.snd = none := by
  induction members with
  | nil => simp [JsonObject.count]
  | cons e members ih =>
    obtain ⟨k', v'⟩ := e
    simp only [JsonObject.count] at ih
    by_cases h : k' = k <;> simp [JsonObject.count, List.filter, List.find?, h]

theorem find?_build (k : List Char) (ops : List ObjectOp) :
    ((JsonObject.build ops).find? (fun e => decide (e.1 = k))).map Prod.snd
      = lastAdded k ops := by
  have hgen : ∀ (ops : List ObjectOp) (members : List (List Char × Option JsonValue))
      (found : Option (Option JsonValue)),
      (members.find? (fun e => decide (e.1 = k))).map Prod.snd = found →
      ((ops.foldl (fun members op =>
          match op with
          | .add key value => JsonObject.add members key value
          | .remove key => JsonObject.remove members key) members).find?
            (fun e => decide (e.1 = k))).map Prod.snd
        = ops.foldl (fun found op =>
            match op with
            | .add k' value => if k' = k then some value else found
            | .remove k' => if k' = k then none else found) found := by
    intro ops
    induction ops with
    | nil => intro members found h; simpa using h
    | cons op ops ih =>
      intro members found h
      simp only [List.foldl_cons]
      apply ih
      cases op with
      | add key value => simp only [find?_add, h]
      | remove key => simp only [find?_remove, h]
  exact hgen ops [] none rfl

theorem lastAdded_append (k : List Char) (ops : List ObjectOp) (op : ObjectOp) :
    lastAdded k (ops ++ [op])
      = match op with
        | .add k' value => if k' = k then some value else lastAdded k ops
        | .remove k' => if k' = k then none else lastAdded k ops := by
  simp only [lastAdded, List.foldl_append, List.foldl_cons, List.foldl_nil]

theorem lastAdded_append_untouched (k : List Char) (ops post : List ObjectOp)
    (h : ∀ op ∈ post, op.key ≠ k) : lastAdded k (ops ++ post) = lastAdded k ops := by
  induction post using List.reverseRecOn with
  | nil => simp
  | append_singleton post op ih =>
    have hop : op.key ≠ k := h op (by simp)
    have hpost : ∀ o ∈ post, o.key ≠ k := fun o ho => h o (by simp [ho])
    rw [← List.append_assoc, lastAdded_append, ih hpost]
    cases op with
    | add k' value => simp only [ObjectOp.key] at hop; simp [hop]
    | remove k' => simp only [ObjectOp.key] at hop; simp [hop]

theorem lastAdded_eq_some_iff (k : List Char) (ops : List ObjectOp) (value : Option JsonValue) :
    lastAdded k ops = some value
      ↔ ∃ pre post, ops = pre ++ ObjectOp.add k value :: post ∧ ∀ op ∈ post, op.key ≠ k := by
  constructor
  · induction ops using List.reverseRecOn with
    | nil => intro h; simp [lastAdded] at h
    | append_singleton ops op ih =>
      intro h
      rw [lastAdded_append] at h
      cases op with
      | add k' v' =>
        by_cases hk : k' = k
        · subst hk
          simp only [if_true, Option.some.injEq] at h
          subst h
          exact ⟨ops, [], rfl, by simp⟩
        · simp only [hk, if_false] at h
          obtain ⟨pre, post, hops, hpost⟩ := ih h
          refine ⟨pre, post ++ [ObjectOp.add k' v'], by simp [hops], ?_⟩
          intro op hop
          rcases List.mem_append.mp hop with hop | hop
          · exact hpost op hop
          · simp only [List.mem_singleton] at hop
            subst hop
            exact hk
      | remove k' =>
        by_cases hk : k' = k
        · simp [hk] at h
        · simp only [hk, if_false] at h
          obtain ⟨pre, post, hops, hpost⟩ := ih h
          refine ⟨pre, post ++ [ObjectOp.remove k'], by simp [hops], ?_⟩
          intro op hop
          rcases List.mem_append.mp hop with hop | hop
          · exact hpost op hop
          · simp only [List.mem_singleton] at hop
            subst hop
            exact hk
  · rintro ⟨pre, post, rfl, hpost⟩
    have : pre ++ ObjectOp.add k value :: post = (pre ++ [ObjectOp.add k value]) ++ post := by
      simp
    rw [this, lastAdded_append_untouched k _ post hpost, lastAdded_append]
    simp

theorem get_build (ops : List ObjectOp) (k : List Char) :
    (JsonObject.get (JsonObject.build ops) k).1
      = (match lastAdded k ops with
        | none => GetResult.keyNotFound
        | some none => GetResult.nullDereference
        | some (some v) => GetResult.value v) := by
  unfold JsonObject.get
  rw [← find?_build k ops]
  cases (JsonObject.build ops).find? (fun e => decide (e.1 = k)) with
  | none => rfl
  | some e =>
    obtain ⟨k', v⟩ := e
    cases v <;> rfl

theorem has_build (ops : List ObjectOp) (k : List Char) :
    (JsonObject.has (JsonObject.build ops) k).1 = (lastAdded k ops).isSome := by
  have hcount := count_eq_zero_iff (JsonObject.build ops) k
  rw [find?_build k ops] at hcount
  unfold JsonObject.has
  cases hl : lastAdded k ops with
  | none => simp [hcount.mpr hl]
  | some x =>
    have : JsonObject.count (JsonObject.build ops) k ≠ 0 := fun h0 => by
      have := hcount.mp h0
      rw [hl] at this
      cases this
    simp [this]

/-- C15 (as stated, refuted): after the one call `add(k, nullptr)`, which `add` accepts, `has(k)` is
true and `get(k)` returns no value: it dereferences the null pointer. -/
theorem get_after_add_null :
    (JsonObject.has (JsonObject.build [ObjectOp.add ['k'] none]) ['k']).1 = true
      ∧ ¬ ∃ v, (JsonObject.get (JsonObject.build [ObjectOp.add ['k'] none]) ['k']).1
          = GetResult.value v := by
  refine ⟨rfl, ?_⟩
  rintro ⟨v, h⟩
  have e : (JsonObject.get (JsonObject.build [ObjectOp.add ['k'] none]) ['k']).1
      = GetResult.nullDereference := rfl
  rw [e] at h
  cases h

/-- C15 (amended): for the object built by any sequence of `add` and `remove` calls and every key
`k`, `has(k)` is true exactly when `k` was added and not removed afterwards; `get(k)`
throws (`std::out_of_range` from `at`) exactly when `has(k)` is false, and returns
the value most recently added under `k` when the pointer most recently added under `k`
is not null; and neither call changes the entries.  Here `lastAdded k ops` is
`some value` exactly when the calls are some calls, then `add(k, value)`, then calls
none of which is made with `k`. -/
theorem object_lookup (ops : List ObjectOp) (k : List Char) :
    (JsonObject.has (JsonObject.build ops) k).1 = (lastAdded k ops).isSome
      ∧ ((JsonObject.get (JsonObject.build ops) k).1 = GetResult.keyNotFound
          ↔ (JsonObject.has (JsonObject.build ops) k).1 = false)
      ∧ (∀ v, lastAdded k ops = some (some v) →
          (JsonObject.get (JsonObject.build ops) k).1 = GetResult.value v)
      ∧ (JsonObject.has (JsonObject.build ops) k).2 = JsonObject.build ops
      ∧ (JsonObject.get (JsonObject.build ops) k).2 = JsonObject.build ops
      ∧ ∀ value, lastAdded k ops = some value
          ↔ ∃ pre post, ops = pre ++ ObjectOp.add k value :: post ∧ ∀ op ∈ post, op.key ≠ k := by
  have hhas := has_build ops k
  have hget := get_build ops k
  refine ⟨hhas, ?_, ?_, rfl, ?_, lastAdded_eq_some_iff k ops⟩
  · rw [hhas, hget]
    cases lastAdded k ops with
    | none => simp
    | some x => cases x <;> simp
  · intro v hv
    rw [hget, hv]
  · unfold JsonObject.get
    cases (JsonObject.build ops).find? (fun e => decide (e.1 = k)) with
    | none => rfl
    | some e =>
      obtain ⟨k', v⟩ := e
      cases v <;> rfl

/-- C15, at the calls `add(k, null)`, `remove(k)`, `add(k, true)`: `has(k)` is true and `get(k)`
returns `true`. -/
theorem object_lookup_witness :
    (JsonObject.has (JsonObject.build
        [ObjectOp.add ['k'] (some .null), ObjectOp.remove ['k'],
          ObjectOp.add ['k'] (some (.bool true))]) ['k']).1 = true
      ∧ (JsonObject.get (JsonObject.build
        [ObjectOp.add ['k'] (some .null), ObjectOp.remove ['k'],
          ObjectOp.add ['k'] (some (.bool true))]) ['k']).1 = GetResult.value (.bool true) :=
  ⟨(object_lookup _ ['k']).1,
    (object_lookup [ObjectOp.add ['k'] (some .null), ObjectOp.remove ['k'],
      ObjectOp.add ['k'] (some (.bool true))] ['k']).2.2.1 (.bool true) rfl⟩

/-! ## Termination -/

theorem le_skipWhitespace (json : List Char) (pos : Nat) : pos ≤ skipWhitespace json pos := by
  simp [skipWhitespace]

theorem parseString_advances (json : List Char) (pos : Nat) :
    pos + 2 ≤ (parseString json pos).2 := by
  simp only [parseString]
  omega

theorem stodSubject_nil : stodSubject [] = none := by decide

theorem parseNumber_progress (conv : List Char → Option Nat) (json : List Char) :
    Progress (parseNumber conv json) := by
  intro pos r p h
  unfold parseNumber at h
  cases hc : charAt json pos with
  | error e => simp [hc] at h
  | ok c =>
    simp only [hc] at h
    cases hs : stod conv ((json.drop pos).take
        ((if c = '-' then pos + 1 else pos)
          + numberRun (json.drop (if c = '-' then pos + 1 else pos)) - pos)) with
    | error e => simp [hs] at h
    | ok v =>
      simp only [hs, Except.ok.injEq, Prod.mk.injEq] at h
      obtain ⟨_, hp⟩ := h
      have hle : pos ≤ p := by
        rw [← hp]
        split_ifs <;> omega
      have hne : p ≠ pos := by
        intro heq
        rw [hp, heq, Nat.sub_self, List.take_zero] at hs
        simp [stod, stodSubject_nil] at hs
      exact ⟨hle, fun _ => by omega⟩

theorem parseBool_progress (json : List Char) : Progress (parseBool json) := by
  intro pos r p h
  unfold parseBool at h
  split_ifs at h <;>
    (simp only [Except.ok.injEq, Prod.mk.injEq] at h
     obtain ⟨hr, hp⟩ := h
     subst hr hp
     simp)

theorem parseNull_progress (json : List Char) : Progress (parseNull json) := by
  intro pos r p h
  unfold parseNull at h
  split_ifs at h
  · simp only [Except.ok.injEq, Prod.mk.injEq] at h
    obtain ⟨hr, hp⟩ := h
    subst hr hp
    simp
  · simp only [Except.ok.injEq, Prod.mk.injEq] at h
    obtain ⟨hr, hp⟩ := h
    subst hr hp
    simp

theorem parseArrayLoop_progress (json : List Char) (pv : Nat → Res (Option JsonValue))
    (hpv : Progress pv) (k : Nat) (arr : List JsonValue) :
    Progress (fun pos => parseArrayLoop json pv k pos arr) := by
  induction k generalizing arr with
  | zero => intro pos r p h; simp [parseArrayLoop] at h
  | succ k ih =>
    intro pos r p h
    simp only [parseArrayLoop] at h
    cases hc : json[pos]? with
    | none =>
      simp only [hc, Except.ok.injEq, Prod.mk.injEq] at h
      obtain ⟨_, hp⟩ := h
      omega
    | some c =>
      simp only [hc] at h
      by_cases hb : c = ']'
      · simp only [hb, if_true, Except.ok.injEq, Prod.mk.injEq] at h
        obtain ⟨_, hp⟩ := h
        omega
      · simp only [hb, if_false] at h
        cases hv : pv pos with
        | error e => simp [hv] at h
        | ok res =>
          obtain ⟨value, p1⟩ := res
          cases value with
          | none =>
            simp only [hv, Except.ok.injEq, Prod.mk.injEq] at h
            obtain ⟨hr, hp⟩ := h
            subst hr hp
            exact ⟨(hpv pos none p1 hv).1, fun hn => absurd rfl hn⟩
          | some v =>
            simp only [hv] at h
            have h1 := (hpv pos (some v) p1 hv).2 (by simp)
            have h2 := le_skipWhitespace json p1
            have h3 := le_skipWhitespace json (skipWhitespace json p1 + 1)
            have h4 := ih (arr ++ [v]) _ r p h
            have h5 : pos < (if json[skipWhitespace json p1]? = some ','
                then skipWhitespace json (skipWhitespace json p1 + 1)
                else skipWhitespace json p1) := by
              split_ifs <;> omega
            exact ⟨by omega, fun _ => by omega⟩

theorem parseObjectLoop_progress (json : List Char) (pv : Nat → Res (Option JsonValue))
    (hpv : Progress pv) (k : Nat) (obj : List (List Char × Option JsonValue)) :
    Progress (fun pos => parseObjectLoop json pv k pos obj) := by
  induction k generalizing obj with
  | zero => intro pos r p h; simp [parseObjectLoop] at h
  | succ k ih =>
    intro pos r p h
    simp only [parseObjectLoop] at h
    cases hc : json[pos]? with
    | none =>
      simp only [hc, Except.ok.injEq, Prod.mk.injEq] at h
      obtain ⟨_, hp⟩ := h
      omega
    | some c =>
      simp only [hc] at h
      by_cases hb : c = '}'
      · simp only [hb, if_true, Except.ok.injEq, Prod.mk.injEq] at h
        obtain ⟨_, hp⟩ := h
        omega
      · simp only [hb, if_false] at h
        cases hv : pv (skipWhitespace json (skipWhitespace json (parseString json pos).2 + 1)) with
        | error e => simp [hv] at h
        | ok res =>
          obtain ⟨value, p4⟩ := res
          simp only [hv] at h
          cases hd : charAt json (skipWhitespace json p4) with
          | error e => simp [hd] at h
          | ok d =>
            simp only [hd] at h
            have h0 := parseString_advances json pos
            have h1 := le_skipWhitespace json (parseString json pos).2
            have h2 := le_skipWhitespace json (skipWhitespace json (parseString json pos).2 + 1)
            have h3 := (hpv _ value p4 hv).1
            have h4 := le_skipWhitespace json p4
            have h5 := le_skipWhitespace json (skipWhitespace json p4 + 1)
            have h6 := ih _ _ r p h
            have h7 : pos < (if d = ',' then skipWhitespace json (skipWhitespace json p4 + 1)
                else skipWhitespace json p4) := by
              split_ifs <;> omega
            exact ⟨by omega, fun _ => by omega⟩

theorem parseValue_progress (conv : List Char → Option Nat) (json : List Char) (fuel : Nat) :
    Progress (parseValue conv json fuel) := by
  induction fuel with
  | zero => intro pos r p h; simp [parseValue] at h
  | succ fuel ih =>
    intro pos r p h
    rw [parseValue] at h
    have h0 := le_skipWhitespace json pos
    cases hc : json[skipWhitespace json pos]? with
    | none =>
      simp only [hc, Except.ok.injEq, Prod.mk.injEq] at h
      obtain ⟨hr, hp⟩ := h
      subst hr hp
      exact ⟨h0, fun hn => absurd rfl hn⟩
    | some c =>
      simp only [hc] at h
      have h1 := le_skipWhitespace json (skipWhitespace json pos + 1)
      split_ifs at h
      · have := (parseObjectLoop_progress json _ ih fuel [] _ r p h).1
        exact ⟨by omega, fun _ => by omega⟩
      · have := (parseArrayLoop_progress json _ ih fuel [] _ r p h).1
        exact ⟨by omega, fun _ => by omega⟩
      · simp only [Except.ok.injEq, Prod.mk.injEq] at h
        obtain ⟨_, hp⟩ := h
        have := parseString_advances json (skipWhitespace json pos)
        exact ⟨by omega, fun _ => by omega⟩
      · have := parseBool_progress json _ r p h
        exact ⟨by omega, fun hn => by have := this.2 hn; omega⟩
      · have := parseNull_progress json _ r p h
        exact ⟨by omega, fun hn => by have := this.2 hn; omega⟩
      · have := parseNumber_progress conv json _ r p h
        exact ⟨by omega, fun hn => by have := this.2 hn; omega⟩
      · simp only [Except.ok.injEq, Prod.mk.injEq] at h
        obtain ⟨hr, hp⟩ := h
        subst hr hp
        exact ⟨h0, fun hn => absurd rfl hn⟩

theorem charAt_ne_outOfFuel (json : List Char) (pos : Nat) :
    charAt json pos ≠ .error .outOfFuel := by
  unfold charAt
  cases json[pos]? with
  | some c => simp
  | none =>
    simp only
    split_ifs <;> simp

theorem stod_ne_outOfFuel (conv : List Char → Option Nat) (numStr : List Char) :
    stod conv numStr ≠ .error .outOfFuel := by
  unfold stod
  cases stodSubject numStr with
  | none => simp
  | some subject =>
    simp only
    cases conv subject <;> simp

theorem parseNumber_ne_outOfFuel (conv : List Char → Option Nat) (json : List Char) (pos : Nat) :
    parseNumber conv json pos ≠ .error .outOfFuel := by
  intro h
  unfold parseNumber at h
  split at h
  · rename_i e he
    cases h
    exact charAt_ne_outOfFuel json pos he
  · simp only at h
    split at h
    · rename_i e he
      cases h
      exact stod_ne_outOfFuel conv _ he
    · cases h

theorem parseArrayLoop_ne_outOfFuel (json : List Char) (pv : Nat → Res (Option JsonValue))
    (hpv : Progress pv) (q : Nat) (hq : ∀ pos, q ≤ pos → pv pos ≠ .error .outOfFuel) (k : Nat) :
    ∀ pos arr, q ≤ pos → 1 ≤ k → json.length + 1 ≤ k + pos →
      parseArrayLoop json pv k pos arr ≠ .error .outOfFuel := by
  induction k with
  | zero => intro pos arr _ hk; omega
  | succ k ih =>
    intro pos arr hqp _ hlen
    simp only [parseArrayLoop]
    cases hc : json[pos]? with
    | none => simp
    | some c =>
      have hlt : pos < json.length := (List.getElem?_eq_some_iff.mp hc).1
      simp only
      split_ifs
      · simp
      · cases hv : pv pos with
        | error e =>
          simp only
          intro h
          cases h
          exact hq pos hqp hv
        | ok res =>
          obtain ⟨value, p1⟩ := res
          cases value with
          | none => simp
          | some v =>
            simp only
            have h1 := (hpv pos (some v) p1 hv).2 (by simp)
            have h2 := le_skipWhitespace json p1
            have h3 := le_skipWhitespace json (skipWhitespace json p1 + 1)
            apply ih
            · split_ifs <;> omega
            · omega
            · split_ifs <;> omega

theorem parseObjectLoop_ne_outOfFuel (json : List Char) (pv : Nat → Res (Option JsonValue))
    (hpv : Progress pv) (q : Nat) (hq : ∀ pos, q ≤ pos → pv pos ≠ .error .outOfFuel) (k : Nat) :
    ∀ pos obj, q ≤ pos → 1 ≤ k → json.length + 1 ≤ k + pos →
      parseObjectLoop json pv k pos obj ≠ .error .outOfFuel := by
  induction k with
  | zero => intro pos obj _ hk; omega
  | succ k ih =>
    intro pos obj hqp _ hlen
    simp only [parseObjectLoop]
    cases hc : json[pos]? with
    | none => simp
    | some c =>
      have hlt : pos < json.length := (List.getElem?_eq_some_iff.mp hc).1
      simp only
      have h0 := parseString_advances json pos
      have h1 := le_skipWhitespace json (parseString json pos).2
      have h2 := le_skipWhitespace json (skipWhitespace json (parseString json pos).2 + 1)
      split_ifs
      · simp
      · cases hv : pv (skipWhitespace json (skipWhitespace json (parseString json pos).2 + 1)) with
        | error e =>
          simp only
          intro h
          cases h
          exact hq _ (by omega) hv
        | ok res =>
          obtain ⟨value, p4⟩ := res
          simp only
          have h3 := (hpv _ value p4 hv).1
          have h4 := le_skipWhitespace json p4
          have h5 := le_skipWhitespace json (skipWhitespace json p4 + 1)
          cases hd : charAt json (skipWhitespace json p4) with
          | error e =>
            simp only
            intro h
            cases h
            exact charAt_ne_outOfFuel json _ hd
          | ok d =>
            simp only
            apply ih
            · split_ifs <;> omega
            · omega
            · split_ifs <;> omega

theorem parseValue_ne_outOfFuel (conv : List Char → Option Nat) (json : List Char) (fuel : Nat) :
    ∀ pos, 1 ≤ fuel → json.length + 1 ≤ fuel + pos →
      parseValue conv json fuel pos ≠ .error .outOfFuel := by
  induction fuel with
  | zero => intro pos h; omega
  | succ fuel ih =>
    intro pos _ hlen
    rw [parseValue]
    have h0 := le_skipWhitespace json pos
    cases hc : json[skipWhitespace json pos]? with
    | none => simp
    | some c =>
      have hlt : skipWhitespace json pos < json.length := (List.getElem?_eq_some_iff.mp hc).1
      have h1 := le_skipWhitespace json (skipWhitespace json pos + 1)
      have hq : ∀ p, skipWhitespace json pos + 1 ≤ p →
          parseValue conv json fuel p ≠ .error .outOfFuel :=
        fun p hp => ih p (by omega) (by omega)
      simp only
      split_ifs
      · exact parseObjectLoop_ne_outOfFuel json _ (parseValue_progress conv json fuel) _ hq fuel
          _ [] h1 (by omega) (by omega)
      · exact parseArrayLoop_ne_outOfFuel json _ (parseValue_progress conv json fuel) _ hq fuel
          _ [] h1 (by omega) (by omega)
      · simp
      · unfold parseBool
        split_ifs <;> simp
      · unfold parseNull
        split_ifs <;> simp
      · exact parseNumber_ne_outOfFuel conv json _
      · simp

theorem parse_ne_outOfFuel (conv : List Char → Option Nat) (json : List Char) :
    parse conv json ≠ .error .outOfFuel := by
  have h := parseValue_ne_outOfFuel conv json (json.length + 2) 0 (by omega) (by omega)
  unfold parse
  cases hr : parseValue conv json (json.length + 2) 0 with
  | error e =>
    simp only
    intro he
    cases he
    exact h hr
  | ok res => simp

theorem spaceRun_le (l : List Char) : spaceRun l ≤ l.length := by
  induction l with
  | nil => simp [spaceRun]
  | cons c l ih =>
    simp only [spaceRun, List.length_cons]
    split_ifs <;> omega

theorem numberRun_le (l : List Char) : numberRun l ≤ l.length := by
  induction l with
  | nil => simp [numberRun]
  | cons c l ih =>
    simp only [numberRun, List.length_cons]
    split_ifs <;> omega

theorem stringLoop_le_aux (n : Nat) :
    ∀ l : List Char, l.length ≤ n → ∀ str, (stringLoop l str).2 ≤ l.length := by
  induction n with
  | zero =>
    intro l hl str
    have : l = [] := List.length_eq_zero.mp (by omega)
    subst this
    simp [stringLoop]
  | succ n ih =>
    intro l hl str
    cases l with
    | nil => simp [stringLoop]
    | cons c l =>
      simp only [List.length_cons] at hl
      by_cases h1 : c = '"'
      · subst h1; simp [stringLoop_quote]
      · by_cases h2 : c = '\\'
        · subst h2
          cases l with
          | nil => rw [stringLoop.eq_def]; simp
          | cons e rest =>
            simp only [List.length_cons] at hl
            rw [stringLoop_escape]
            have := ih rest (by omega) (str ++ [unescape e])
            simp only [List.length_cons]
            omega
        · rw [stringLoop_plain c l str h1 h2]
          have := ih l (by omega) (str ++ [c])
          simp only [List.length_cons]
          omega

theorem stringLoop_le (l str : List Char) : (stringLoop l str).2 ≤ l.length :=
  stringLoop_le_aux l.length l (Nat.le_refl _) str

/-- C19: `parse` terminates on every input: with the fuel `parse` supplies, one unit for each
nested call of `parseValue` and one for each iteration of the loops of `parseArray`
and `parseObject`, the fuel never runs out, so the nesting never exceeds the length of
the input plus two.  Every call of `parseValue` that returns a value has moved `pos`
forward; every iteration of the loops of `parseArray` and `parseObject` ends with
`pos` beyond where it started; `parseString` moves `pos` forward by at least two; and
the loops of `skipWhitespace`, `parseNumber` and `parseString`, which advance on every
iteration, stop within the remaining input. -/
theorem parse_terminates (conv : List Char → Option Nat) (json : List Char) :
    parse conv json ≠ .error .outOfFuel
      ∧ (∀ fuel pos, 1 ≤ fuel → json.length + 1 ≤ fuel + pos →
          parseValue conv json fuel pos ≠ .error .outOfFuel)
      ∧ (∀ fuel pos v p, parseValue conv json fuel pos = .ok (some v, p) → pos < p)
      ∧ (∀ fuel pos v p1, parseValue conv json fuel pos = .ok (some v, p1) →
          pos < (if json[skipWhitespace json p1]? = some ','
            then skipWhitespace json (skipWhitespace json p1 + 1)
            else skipWhitespace json p1))
      ∧ (∀ fuel pos value p4 (d : Char),
          parseValue conv json fuel
              (skipWhitespace json (skipWhitespace json (parseString json pos).2 + 1))
            = .ok (value, p4) →
          pos < (if d = ',' then skipWhitespace json (skipWhitespace json p4 + 1)
            else skipWhitespace json p4))
      ∧ (∀ pos, pos + 2 ≤ (parseString json pos).2)
      ∧ (∀ pos, pos ≤ skipWhitespace json pos)
      ∧ (∀ l : List Char, spaceRun l ≤ l.length ∧ numberRun l ≤ l.length
          ∧ ∀ str, (stringLoop l str).2 ≤ l.length) := by
  refine ⟨parse_ne_outOfFuel conv json, fun fuel => parseValue_ne_outOfFuel conv json fuel,
    ?_, ?_, ?_, parseString_advances json, le_skipWhitespace json,
    fun l => ⟨spaceRun_le l, numberRun_le l, stringLoop_le l⟩⟩
  · intro fuel pos v p h
    exact (parseValue_progress conv json fuel pos (some v) p h).2 (by simp)
  · intro fuel pos v p1 h
    have h1 := (parseValue_progress conv json fuel pos (some v) p1 h).2 (by simp)
    have h2 := le_skipWhitespace json p1
    have h3 := le_skipWhitespace json (skipWhitespace json p1 + 1)
    split_ifs <;> omega
  · intro fuel pos value p4 d h
    have h0 := parseString_advances json pos
    have h1 := le_skipWhitespace json (parseString json pos).2
    have h2 := le_skipWhitespace json (skipWhitespace json (parseString json pos).2 + 1)
    have h3 := (parseValue_progress conv json fuel _ value p4 h).1
    have h4 := le_skipWhitespace json p4
    have h5 := le_skipWhitespace json (skipWhitespace json p4 + 1)
    split_ifs <;> omega

/-! ## Laid-out texts: leaves -/

theorem follow_of_head (l : List Char)
    (h : ∀ d r, l = d :: r → isspace d = true ∨ d = ',' ∨ d = ']' ∨ d = '}') : Follow l := by
  intro d r hl
  rcases h d r hl with hd | rfl | rfl | rfl
  · refine ⟨?_, ?_⟩
    · by_contra hc
      have := isdigit_not_space (c := d) (by simpa using hc)
      rw [this] at hd
      cases hd
    · rintro rfl
      revert hd
      decide
  · exact ⟨by decide, by decide⟩
  · exact ⟨by decide, by decide⟩
  · exact ⟨by decide, by decide⟩

theorem docReadsBack_of_value (conv : List Char → Option Nat) (fmt : Nat → List Char)
    (d : Doc) (h : ValueReadsBack conv fmt (Doc.value d))
    (ht : printValue fmt (Doc.value d) 0 = some (Doc.text d)) : DocReadsBack conv d := by
  obtain ⟨t, ht', hs, hp⟩ := h 0
  rw [ht] at ht'
  cases ht'
  exact ⟨hs, hp⟩

theorem docReadsBack_number (conv : List Char → Option Nat) (token : List Char) (value : Nat)
    (h : NumberReadsBack conv (fun _ => token) value) :
    DocReadsBack conv (.number token value) :=
  docReadsBack_of_value conv (fun _ => token) (.number token value)
    (valueReadsBack_number conv _ value h) rfl

theorem docReadsBack_bool (conv : List Char → Option Nat) (b : Bool) :
    DocReadsBack conv (.bool b) :=
  docReadsBack_of_value conv (fun _ => []) (.bool b) (valueReadsBack_bool conv _ b) rfl

theorem docReadsBack_null (conv : List Char → Option Nat) : DocReadsBack conv .null :=
  docReadsBack_of_value conv (fun _ => []) .null (valueReadsBack_null conv _) rfl

theorem docReadsBack_string (conv : List Char → Option Nat) (pieces : List Piece)
    (h : ∀ p ∈ pieces, p.wellFormed) : DocReadsBack conv (.string pieces) := by
  refine ⟨⟨'"', piecesText pieces ++ ['"'], rfl, by decide, by decide, by decide⟩, ?_⟩
  intro json pos rest fuel hdrop _ hfuel
  simp only [Doc.text] at hdrop hfuel
  obtain ⟨f, rfl⟩ : ∃ f, fuel = f + 1 := ⟨fuel - 1, by simp at hfuel; omega⟩
  have hdrop' : json.drop pos = '"' :: (piecesText pieces ++ '"' :: rest) := by
    simpa using hdrop
  rw [parseValue_string conv f hdrop', stringLoop_pieces pieces h]
  simp [Doc.value, Doc.text]
  omega

/-! ## Laid-out texts: arrays -/

theorem starts_append {t : List Char} (h : Starts t) (u : List Char) : Starts (t ++ u) := by
  obtain ⟨c, r, rfl, h1, h2, h3⟩ := h
  exact ⟨c, r ++ u, rfl, h1, h2, h3⟩

theorem starts_itemsText_cons (d : Doc) (wsEnd wsNext : List Char)
    (rest : List (Doc × List Char × List Char)) (hd : Starts (Doc.text d)) :
    Starts (Doc.itemsText ((d, wsEnd, wsNext) :: rest)) := by
  simp only [Doc.itemsText, List.append_assoc]
  exact starts_append hd _

theorem next_after_items (items : List (Doc × List Char × List Char))
    (hstart : items.isEmpty = false → Starts (Doc.itemsText items)) (rest : List Char) :
    ∃ c r, Doc.itemsText items ++ ']' :: rest = c :: r ∧ isspace c = false := by
  cases items with
  | nil => exact ⟨']', rest, by simp [Doc.itemsText], by decide⟩
  | cons item items =>
    obtain ⟨c, r, hc, hsp, _, _⟩ := hstart rfl
    exact ⟨c, r ++ ']' :: rest, by rw [hc]; rfl, hsp⟩

theorem itemsReadBack_nil (conv : List Char → Option Nat) : ItemsReadBack conv [] := by
  intro json p rest f k arr hdrop _ hk
  obtain ⟨k, rfl⟩ : ∃ j, k = j + 1 := ⟨k - 1, by omega⟩
  have hdrop' : json.drop p = ']' :: rest := by simpa [Doc.itemsText] using hdrop
  rw [parseArrayLoop, getElem?_of_drop hdrop']
  simp [Doc.itemsText, Doc.itemsValue]

theorem follow_space_or_close (ws : List Char) (hws : AllSpace ws) (c : Char) (r : List Char)
    (hc : c = ',' ∨ c = ']' ∨ c = '}') : Follow (ws ++ c :: r) := by
  apply follow_of_head
  intro e r' he
  cases ws with
  | nil =>
    simp only [List.nil_append, List.cons.injEq] at he
    rw [← he.1]
    exact Or.inr hc
  | cons w ws =>
    simp only [List.cons_append, List.cons.injEq] at he
    exact Or.inl (by rw [← he.1]; exact hws w (List.mem_cons_self _ _))

theorem itemsReadBack_cons (conv : List Char → Option Nat) (d : Doc) (wsEnd wsNext : List Char)
    (items : List (Doc × List Char × List Char)) (hd : DocReadsBack conv d)
    (hwsEnd : AllSpace wsEnd) (hwsNext : AllSpace wsNext)
    (hstart : items.isEmpty = false → Starts (Doc.itemsText items))
    (hitems : ItemsReadBack conv items) :
    ItemsReadBack conv ((d, wsEnd, wsNext) :: items) := by
  obtain ⟨⟨c, r, htext, hsp, hb, _⟩, hparse⟩ := hd
  intro json p rest f k arr hdrop hf hk
  obtain ⟨k, rfl⟩ : ∃ j, k = j + 1 := ⟨k - 1, by omega⟩
  have hget : json[p]? = some c :=
    getElem?_of_drop (by rw [hdrop, Doc.itemsText, htext]; rfl)
  have hpos : 0 < (Doc.text d).length := by rw [htext]; simp
  by_cases hi : items.isEmpty = true
  · -- last item: the whitespace behind it is skipped and the bracket closes the array
    have hitems0 : items = [] := List.isEmpty_iff.mp hi
    subst hitems0
    have htxt : Doc.itemsText [(d, wsEnd, wsNext)] = Doc.text d ++ wsEnd := by
      simp [Doc.itemsText]
    rw [htxt] at hdrop hf hk ⊢
    simp only [List.length_append] at hf hk
    have hdrop0 : json.drop p = Doc.text d ++ (wsEnd ++ ']' :: rest) := by simpa using hdrop
    have hpv := hparse json p _ f hdrop0
      (follow_space_or_close wsEnd hwsEnd ']' rest (Or.inr (Or.inl rfl))) (by omega)
    have hdrop1 := drop_add_of_drop _ hdrop0
    have hs2 : skipWhitespace json (p + (Doc.text d).length)
        = p + (Doc.text d).length + wsEnd.length :=
      skipWhitespace_run wsEnd hdrop1 hwsEnd (by decide)
    have hdrop2 := drop_add_of_drop _ hdrop1
    have hget2 := getElem?_of_drop hdrop2
    rw [parseArrayLoop, hget]
    simp only [hb, if_false, hpv]
    rw [hs2]
    simp only [hget2, Option.some.injEq, show (']' : Char) ≠ ',' by decide, if_false]
    rw [hitems json _ rest f k _ (by simpa [Doc.itemsText] using hdrop2)
      (by simp [Doc.itemsText]; omega) (by simp [Doc.itemsText]; omega)]
    simp only [Doc.itemsText, Doc.itemsValue, List.append_nil, List.length_append,
      List.length_nil, List.append_assoc, List.singleton_append]
    congr 2
    omega
  · -- a comma follows: it is skipped together with the whitespace behind it
    have htxt : Doc.itemsText ((d, wsEnd, wsNext) :: items)
        = Doc.text d ++ wsEnd ++ ',' :: wsNext ++ Doc.itemsText items := by
      simp [Doc.itemsText, hi]
    rw [htxt] at hdrop hf hk ⊢
    simp only [List.length_append, List.length_cons] at hf hk
    have hdrop0 : json.drop p
        = Doc.text d ++ (wsEnd ++ ',' :: (wsNext ++ (Doc.itemsText items ++ ']' :: rest))) := by
      simpa using hdrop
    have hpv := hparse json p _ f hdrop0
      (follow_space_or_close wsEnd hwsEnd ',' _ (Or.inl rfl)) (by omega)
    have hdrop1 := drop_add_of_drop _ hdrop0
    have hs2 : skipWhitespace json (p + (Doc.text d).length)
        = p + (Doc.text d).length + wsEnd.length :=
      skipWhitespace_run wsEnd hdrop1 hwsEnd (by decide)
    have hdrop2 := drop_add_of_drop _ hdrop1
    have hget2 := getElem?_of_drop hdrop2
    have hdrop3 := drop_succ_of_drop hdrop2
    obtain ⟨c', r', hnext, hsp'⟩ := next_after_items items
      (fun h => hstart h) rest
    rw [hnext] at hdrop3
    have hs3 : skipWhitespace json (p + (Doc.text d).length + wsEnd.length + 1)
        = p + (Doc.text d).length + wsEnd.length + 1 + wsNext.length :=
      skipWhitespace_run wsNext hdrop3 hwsNext hsp'
    have hdrop4 := drop_add_of_drop _ hdrop3
    rw [← hnext] at hdrop4
    rw [parseArrayLoop, hget]
    simp only [hb, if_false, hpv]
    rw [hs2]
    simp only [hget2, if_true]
    rw [hs3, hitems json _ rest f k _ hdrop4 (by omega) (by omega)]
    simp only [Doc.itemsValue, List.length_append, List.length_cons, List.append_assoc,
      List.singleton_append]
    congr 2
    omega

theorem docReadsBack_array (conv : List Char → Option Nat) (afterOpen : List Char)
    (items : List (Doc × List Char × List Char)) (hws : AllSpace afterOpen)
    (hstart : items.isEmpty = false → Starts (Doc.itemsText items))
    (hitems : ItemsReadBack conv items) : DocReadsBack conv (.array afterOpen items) := by
  refine ⟨⟨'[', _, rfl, by decide, by decide, by decide⟩, ?_⟩
  intro json pos rest fuel hdrop _ hfuel
  simp only [Doc.text] at hdrop hfuel
  obtain ⟨f, rfl⟩ : ∃ f, fuel = f + 1 := ⟨fuel - 1, by simp at hfuel; omega⟩
  have hdrop0 : json.drop pos
      = '[' :: (afterOpen ++ (Doc.itemsText items ++ ']' :: rest)) := by
    simpa using hdrop
  have hs : skipWhitespace json pos = pos := skipWhitespace_of_drop_cons hdrop0 (by decide)
  have hdrop1 := drop_succ_of_drop hdrop0
  obtain ⟨c, r, hnext, hsp⟩ := next_after_items items hstart rest
  rw [hnext] at hdrop1
  have hs1 : skipWhitespace json (pos + 1) = pos + 1 + afterOpen.length :=
    skipWhitespace_run afterOpen hdrop1 hws hsp
  have hdrop2 := drop_add_of_drop _ hdrop1
  rw [← hnext] at hdrop2
  have hlen : ('[' :: afterOpen ++ Doc.itemsText items ++ [']']).length
      = afterOpen.length + (Doc.itemsText items).length + 2 := by
    simp only [List.length_append, List.length_cons, List.length_nil]
    omega
  rw [hlen] at hfuel
  have hrun := hitems json _ rest f f [] hdrop2 (by omega) (by omega)
  have hne : ('[' : Char) ≠ '{' := by decide
  rw [parseValue]
  simp only [hs, getElem?_of_drop hdrop0, hne, if_false, if_true, hs1, hrun, Doc.text, hlen,
    Doc.value]
  simp only [List.nil_append]
  congr 2
  omega

/-! ## Laid-out texts: objects -/

theorem starts_entriesText_cons (key : List Piece) (wsKey wsColon : List Char) (d : Doc)
    (wsEnd wsNext : List Char)
    (rest : List (List Piece × List Char × List Char × Doc × List Char × List Char)) :
    Starts (Doc.entriesText ((key, wsKey, wsColon, d, wsEnd, wsNext) :: rest)) :=
  ⟨'"', _, by simp only [Doc.entriesText, List.append_assoc, List.cons_append]; rfl,
    by decide, by decide, by decide⟩

theorem next_after_entries
    (entries : List (List Piece × List Char × List Char × Doc × List Char × List Char))
    (rest : List Char) :
    ∃ c r, Doc.entriesText entries ++ '}' :: rest = c :: r ∧ isspace c = false := by
  cases entries with
  | nil => exact ⟨'}', rest, by simp [Doc.entriesText], by decide⟩
  | cons entry entries =>
    obtain ⟨key, wsKey, wsColon, d, wsEnd, wsNext⟩ := entry
    obtain ⟨c, r, hc, hsp, _, _⟩ := starts_entriesText_cons key wsKey wsColon d wsEnd wsNext entries
    exact ⟨c, r ++ '}' :: rest, by rw [hc]; rfl, hsp⟩

theorem entriesReadBack_nil (conv : List Char → Option Nat) : EntriesReadBack conv [] := by
  intro json p rest f k obj hdrop _ hk
  obtain ⟨k, rfl⟩ : ∃ j, k = j + 1 := ⟨k - 1, by omega⟩
  have hdrop' : json.drop p = '}' :: rest := by simpa [Doc.entriesText] using hdrop
  rw [parseObjectLoop, getElem?_of_drop hdrop']
  simp [Doc.entriesText, Doc.entriesValue]

theorem entriesReadBack_cons (conv : List Char → Option Nat) (key : List Piece)
    (wsKey wsColon : List Char) (d : Doc) (wsEnd wsNext : List Char)
    (entries : List (List Piece × List Char × List Char × Doc × List Char × List Char))
    (hkey : ∀ p ∈ key, p.wellFormed) (hwsKey : AllSpace wsKey) (hwsColon : AllSpace wsColon)
    (hd : DocReadsBack conv d) (hwsEnd : AllSpace wsEnd) (hwsNext : AllSpace wsNext)
    (hentries : EntriesReadBack conv entries) :
    EntriesReadBack conv ((key, wsKey, wsColon, d, wsEnd, wsNext) :: entries) := by
  obtain ⟨⟨c, r, htext, hsp, _, _⟩, hparse⟩ := hd
  intro json p rest f k obj hdrop hf hk
  obtain ⟨k, rfl⟩ : ∃ j, k = j + 1 := ⟨k - 1, by omega⟩
  have hpos : 0 < (Doc.text d).length := by rw [htext]; simp
  -- the part of the entry up to the value does not depend on what follows
  have hhead : ∀ tail : List Char,
      json.drop p = '"' :: (piecesText key ++ '"' :: (wsKey ++ ':' :: (wsColon
        ++ (Doc.text d ++ tail)))) →
      Follow tail → (Doc.text d).length ≤ f →
      json[p]? = some '"'
        ∧ parseString json p = (key.map Piece.denotes, p + 1 + (piecesText key).length + 1)
        ∧ skipWhitespace json (p + 1 + (piecesText key).length + 1)
            = p + 1 + (piecesText key).length + 1 + wsKey.length
        ∧ skipWhitespace json (p + 1 + (piecesText key).length + 1 + wsKey.length + 1)
            = p + 1 + (piecesText key).length + 1 + wsKey.length + 1 + wsColon.length
        ∧ parseValue conv json f
            (p + 1 + (piecesText key).length + 1 + wsKey.length + 1 + wsColon.length)
            = .ok (some (Doc.value d),
                p + 1 + (piecesText key).length + 1 + wsKey.length + 1 + wsColon.length
                  + (Doc.text d).length)
        ∧ json.drop (p + 1 + (piecesText key).length + 1 + wsKey.length + 1 + wsColon.length
            + (Doc.text d).length) = tail := by
    intro tail hdrop0 hfollow hfuel
    have hdropk := drop_succ_of_drop hdrop0
    have hps : parseString json p
        = (key.map Piece.denotes, p + 1 + (piecesText key).length + 1) := by
      simp [parseString, hdropk, stringLoop_pieces key hkey]
    have hdropq := drop_succ_of_drop (drop_add_of_drop _ hdropk)
    have hs2 := skipWhitespace_run wsKey hdropq hwsKey (by decide)
    have hdropc := drop_add_of_drop _ hdropq
    have hdropv0 := drop_succ_of_drop hdropc
    have hdropv0' : json.drop (p + 1 + (piecesText key).length + 1 + wsKey.length + 1)
        = wsColon ++ c :: (r ++ tail) := by
      rw [hdropv0, htext]; rfl
    have hs3 := skipWhitespace_run wsColon hdropv0' hwsColon hsp
    have hdropv := drop_add_of_drop _ hdropv0
    have hpv := hparse json _ tail f hdropv hfollow hfuel
    exact ⟨getElem?_of_drop hdrop0, hps, hs2, hs3, hpv, drop_add_of_drop _ hdropv⟩
  have hne : ('"' : Char) ≠ '}' := by decide
  by_cases hi : entries.isEmpty = true
  · -- last entry: the whitespace behind it is skipped and the brace closes the object
    have hentries0 : entries = [] := List.isEmpty_iff.mp hi
    subst hentries0
    have htxt : Doc.entriesText [(key, wsKey, wsColon, d, wsEnd, wsNext)]
        = '"' :: piecesText key ++ '"' :: wsKey ++ ':' :: wsColon ++ Doc.text d ++ wsEnd := by
      simp [Doc.entriesText]
    rw [htxt] at hdrop hf hk ⊢
    simp only [List.length_append, List.length_cons] at hf hk
    obtain ⟨hget, hps, hs2, hs3, hpv, hdrop4⟩ := hhead (wsEnd ++ '}' :: rest)
      (by simpa using hdrop) (follow_space_or_close wsEnd hwsEnd '}' rest (Or.inr (Or.inr rfl)))
      (by omega)
    have hs5 := skipWhitespace_run wsEnd hdrop4 hwsEnd (by decide)
    have hdrop5 := drop_add_of_drop _ hdrop4
    have hch : charAt json (skipWhitespace json
        (p + 1 + (piecesText key).length + 1 + wsKey.length + 1 + wsColon.length
          + (Doc.text d).length)) = .ok '}' := by
      rw [hs5, charAt, getElem?_of_drop hdrop5]
    rw [parseObjectLoop, hget]
    simp only [hne, if_false, hps, hs2, hs3, hpv, hch, show ('}' : Char) ≠ ',' by decide]
    rw [hs5, hentries json _ rest f k _ (by simpa [Doc.entriesText] using hdrop5)
      (by simp [Doc.entriesText]; omega) (by simp [Doc.entriesText]; omega)]
    simp only [Doc.entriesText, Doc.entriesValue, List.length_append, List.length_cons,
      List.length_nil]
    congr 2
    omega
  · -- a comma follows: it is skipped together with the whitespace behind it
    have htxt : Doc.entriesText ((key, wsKey, wsColon, d, wsEnd, wsNext) :: entries)
        = '"' :: piecesText key ++ '"' :: wsKey ++ ':' :: wsColon ++ Doc.text d ++ wsEnd
          ++ ',' :: wsNext ++ Doc.entriesText entries := by
      simp [Doc.entriesText, hi]
    rw [htxt] at hdrop hf hk ⊢
    simp only [List.length_append, List.length_cons] at hf hk
    obtain ⟨hget, hps, hs2, hs3, hpv, hdrop4⟩ := hhead
      (wsEnd ++ ',' :: (wsNext ++ (Doc.entriesText entries ++ '}' :: rest)))
      (by simpa using hdrop) (follow_space_or_close wsEnd hwsEnd ',' _ (Or.inl rfl)) (by omega)
    have hs5 := skipWhitespace_run wsEnd hdrop4 hwsEnd (by decide)
    have hdrop5 := drop_add_of_drop _ hdrop4
    have hch : charAt json (skipWhitespace json
        (p + 1 + (piecesText key).length + 1 + wsKey.length + 1 + wsColon.length
          + (Doc.text d).length)) = .ok ',' := by
      rw [hs5, charAt, getElem?_of_drop hdrop5]
    have hdrop6 := drop_succ_of_drop hdrop5
    obtain ⟨c', r', hnext, hsp'⟩ := next_after_entries entries rest
    rw [hnext] at hdrop6
    have hs6 := skipWhitespace_run wsNext hdrop6 hwsNext hsp'
    have hdrop7 := drop_add_of_drop _ hdrop6
    rw [← hnext] at hdrop7
    rw [parseObjectLoop, hget]
    simp only [hne, if_false, hps, hs2, hs3, hpv, hch, if_true]
    rw [hs5, hs6, hentries json _ rest f k _ hdrop7 (by omega) (by omega)]
    simp only [Doc.entriesValue, List.length_append, List.length_cons]
    congr 2
    omega

theorem docReadsBack_object (conv : List Char → Option Nat) (afterOpen : List Char)
    (entries : List (List Piece × List Char × List Char × Doc × List Char × List Char))
    (hws : AllSpace afterOpen) (hentries : EntriesReadBack conv entries) :
    DocReadsBack conv (.object afterOpen entries) := by
  refine ⟨⟨'{', _, rfl, by decide, by decide, by decide⟩, ?_⟩
  intro json pos rest fuel hdrop _ hfuel
  simp only [Doc.text] at hdrop hfuel
  obtain ⟨f, rfl⟩ : ∃ f, fuel = f + 1 := ⟨fuel - 1, by simp at hfuel; omega⟩
  have hdrop0 : json.drop pos
      = '{' :: (afterOpen ++ (Doc.entriesText entries ++ '}' :: rest)) := by
    simpa using hdrop
  have hs : skipWhitespace json pos = pos := skipWhitespace_of_drop_cons hdrop0 (by decide)
  have hdrop1 := drop_succ_of_drop hdrop0
  obtain ⟨c, r, hnext, hsp⟩ := next_after_entries entries rest
  rw [hnext] at hdrop1
  have hs1 : skipWhitespace json (pos + 1) = pos + 1 + afterOpen.length :=
    skipWhitespace_run afterOpen hdrop1 hws hsp
  have hdrop2 := drop_add_of_drop _ hdrop1
  rw [← hnext] at hdrop2
  have hlen : ('{' :: afterOpen ++ Doc.entriesText entries ++ ['}']).length
      = afterOpen.length + (Doc.entriesText entries).length + 2 := by
    simp only [List.length_append, List.length_cons, List.length_nil]
    omega
  rw [hlen] at hfuel
  have hrun := hentries json _ rest f f [] hdrop2 (by omega) (by omega)
  rw [parseValue]
  simp only [hs, getElem?_of_drop hdrop0, if_true, hs1, hrun, Doc.text, hlen, Doc.value]
  congr 2
  omega

/-! ## Laid-out texts are parsed to their trees -/

mutual
theorem docReadsBack (conv : List Char → Option Nat) :
    ∀ d : Doc, Doc.WellFormed conv d → DocReadsBack conv d
  | .number token value, h => docReadsBack_number conv token value (by simpa [Doc.WellFormed] using h)
  | .string pieces, h => docReadsBack_string conv pieces (by simpa [Doc.WellFormed] using h)
  | .bool b, _ => docReadsBack_bool conv b
  | .null, _ => docReadsBack_null conv
  | .array afterOpen items, h =>
    have h' : AllSpace afterOpen ∧ Doc.itemsWellFormed conv items := by
      simpa [Doc.WellFormed] using h
    docReadsBack_array conv afterOpen items h'.1 (itemsReadBack conv items h'.2).2
      (itemsReadBack conv items h'.2).1
  | .object afterOpen entries, h =>
    have h' : AllSpace afterOpen ∧ Doc.entriesWellFormed conv entries := by
      simpa [Doc.WellFormed] using h
    docReadsBack_object conv afterOpen entries h'.1 (entriesReadBack conv entries h'.2)
theorem itemsReadBack (conv : List Char → Option Nat) :
    ∀ items : List (Doc × List Char × List Char), Doc.itemsWellFormed conv items →
      ItemsReadBack conv items ∧ (items.isEmpty = false → Starts (Doc.itemsText items))
  | [], _ => ⟨itemsReadBack_nil conv, fun h => by simp at h⟩
  | (d, wsEnd, wsNext) :: items, h =>
    have h' : Doc.WellFormed conv d ∧ AllSpace wsEnd ∧ AllSpace wsNext
        ∧ Doc.itemsWellFormed conv items := by
      simpa [Doc.itemsWellFormed] using h
    ⟨itemsReadBack_cons conv d wsEnd wsNext items (docReadsBack conv d h'.1) h'.2.1 h'.2.2.1
        (itemsReadBack conv items h'.2.2.2).2 (itemsReadBack conv items h'.2.2.2).1,
      fun _ => starts_itemsText_cons d wsEnd wsNext items (docReadsBack conv d h'.1).1⟩
theorem entriesReadBack (conv : List Char → Option Nat) :
    ∀ entries : List (List Piece × List Char × List Char × Doc × List Char × List Char),
      Doc.entriesWellFormed conv entries → EntriesReadBack conv entries
  | [], _ => entriesReadBack_nil conv
  | (key, wsKey, wsColon, d, wsEnd, wsNext) :: entries, h =>
    have h' : (∀ p ∈ key, p.wellFormed) ∧ AllSpace wsKey ∧ AllSpace wsColon
        ∧ Doc.WellFormed conv d ∧ AllSpace wsEnd ∧ AllSpace wsNext
        ∧ Doc.entriesWellFormed conv entries := by
      simpa [Doc.entriesWellFormed] using h
    entriesReadBack_cons conv key wsKey wsColon d wsEnd wsNext entries h'.1 h'.2.1 h'.2.2.1
      (docReadsBack conv d h'.2.2.2.1) h'.2.2.2.2.1 h'.2.2.2.2.2.1
      (entriesReadBack conv entries h'.2.2.2.2.2.2)
end

mutual
theorem Doc.value_compact : ∀ d : Doc, Doc.value (Doc.compact d) = Doc.value d
  | .number _ _ => rfl
  | .string _ => rfl
  | .bool _ => rfl
  | .null => rfl
  | .array _ items => by
    simp only [Doc.compact, Doc.value, Doc.itemsValue_compact items]
  | .object _ entries => by
    simp only [Doc.compact, Doc.value, Doc.entriesValue_compact entries]
theorem Doc.itemsValue_compact :
    ∀ items : List (Doc × List Char × List Char),
      Doc.itemsValue (Doc.compactItems items) = Doc.itemsValue items
  | [] => rfl
  | (d, _, _) :: items => by
    simp only [Doc.compactItems, Doc.itemsValue, Doc.value_compact d,
      Doc.itemsValue_compact items]
theorem Doc.entriesValue_compact :
    ∀ (entries : List (List Piece × List Char × List Char × Doc × List Char × List Char))
      (obj : List (List Char × Option JsonValue)),
      Doc.entriesValue (Doc.compactEntries entries) obj = Doc.entriesValue entries obj
  | [], _ => rfl
  | (key, _, _, d, _, _) :: entries, obj => by
    simp only [Doc.compactEntries, Doc.entriesValue, Doc.value_compact d,
      Doc.entriesValue_compact entries]
end

theorem allSpace_nil : AllSpace [] := fun c hc => by simp at hc

mutual
theorem Doc.wellFormed_compact (conv : List Char → Option Nat) :
    ∀ d : Doc, Doc.WellFormed conv d → Doc.WellFormed conv (Doc.compact d)
  | .number _ _, h => h
  | .string _, h => h
  | .bool _, h => h
  | .null, h => h
  | .array _ items, h => by
    simp only [Doc.WellFormed] at h
    simp only [Doc.compact, Doc.WellFormed]
    exact ⟨allSpace_nil, Doc.itemsWellFormed_compact conv items h.2⟩
  | .object _ entries, h => by
    simp only [Doc.WellFormed] at h
    simp only [Doc.compact, Doc.WellFormed]
    exact ⟨allSpace_nil, Doc.entriesWellFormed_compact conv entries h.2⟩
theorem Doc.itemsWellFormed_compact (conv : List Char → Option Nat) :
    ∀ items : List (Doc × List Char × List Char), Doc.itemsWellFormed conv items →
      Doc.itemsWellFormed conv (Doc.compactItems items)
  | [], _ => by simp [Doc.compactItems, Doc.itemsWellFormed]
  | (d, _, _) :: items, h => by
    simp only [Doc.itemsWellFormed] at h
    simp only [Doc.compactItems, Doc.itemsWellFormed]
    exact ⟨Doc.wellFormed_compact conv d h.1, allSpace_nil, allSpace_nil,
      Doc.itemsWellFormed_compact conv items h.2.2.2⟩
theorem Doc.entriesWellFormed_compact (conv : List Char → Option Nat) :
    ∀ entries : List (List Piece × List Char × List Char × Doc × List Char × List Char),
      Doc.entriesWellFormed conv entries →
      Doc.entriesWellFormed conv (Doc.compactEntries entries)
  | [], _ => by simp [Doc.compactEntries, Doc.entriesWellFormed]
  | (key, _, _, d, _, _) :: entries, h => by
    simp only [Doc.entriesWellFormed] at h
    simp only [Doc.compactEntries, Doc.entriesWellFormed]
    exact ⟨h.1, allSpace_nil, allSpace_nil, Doc.wellFormed_compact conv d h.2.2.2.1,
      allSpace_nil, allSpace_nil, Doc.entriesWellFormed_compact conv entries h.2.2.2.2.2.2⟩
end

theorem follow_nil : Follow [] := fun d r h => by simp at h

mutual
theorem printable_of_restricted (conv : List Char → Option Nat) (fmt : Nat → List Char) :
    ∀ v : JsonValue, Restricted v → Printable conv fmt v
  | .number _, h => by simp [Restricted] at h
  | .string _, h => by simpa [Restricted, Printable] using h
  | .bool _, _ => by simp [Printable]
  | .null, _ => by simp [Printable]
  | .array vs, h => by
    simp only [Restricted] at h
    simp only [Printable]
    exact printableElements_of_restricted conv fmt vs h
  | .object ms, h => by
    simp only [Restricted] at h
    simp only [Printable]
    exact ⟨printableMembers_of_restricted conv fmt ms h.1, h.2⟩
theorem printableElements_of_restricted (conv : List Char → Option Nat)
    (fmt : Nat → List Char) :
    ∀ vs : List JsonValue, RestrictedElements vs → PrintableElements conv fmt vs
  | [], _ => by simp [PrintableElements]
  | v :: vs, h => by
    simp only [RestrictedElements] at h
    simp only [PrintableElements]
    exact ⟨printable_of_restricted conv fmt v h.1,
      printableElements_of_restricted conv fmt vs h.2⟩
theorem printableMembers_of_restricted (conv : List Char → Option Nat)
    (fmt : Nat → List Char) :
    ∀ ms : List (List Char × Option JsonValue), RestrictedMembers ms →
      PrintableMembers conv fmt ms
  | [], _ => by simp [PrintableMembers]
  | (key, some v) :: ms, h => by
    simp only [RestrictedMembers] at h
    simp only [PrintableMembers]
    exact ⟨h.1, printable_of_restricted conv fmt v h.2.1,
      printableMembers_of_restricted conv fmt ms h.2.2⟩
  | (_, none) :: _, h => by simp [RestrictedMembers] at h
end

/-- C20: for every tree `v` built from null, booleans, strings, arrays and objects only, in which
no string and no key holds a double quote or a backslash, and every indent `n`,
`printValue` emits a text and `parse` applied to it succeeds and returns `v`,
whatever the floating-point conversions are.  The entries of an object of `v` are
listed in the order in which `printValue` emits them, whichever that is; the tree
returned holds the same entries, hence the same map from keys to values. -/
theorem restricted_round_trip (conv : List Char → Option Nat) (fmt : Nat → List Char)
    (v : JsonValue) (n : Nat) (h : Restricted v) :
    ∃ text, printValue fmt v n = some text ∧ parse conv text = .ok (some v) := by
  obtain ⟨t, ht, _, hparse⟩ :=
    valueReadsBack conv fmt v (printable_of_restricted conv fmt v h) n
  refine ⟨t, ht, ?_⟩
  have := hparse t 0 [] (t.length + 2) (by simp) follow_nil (by omega)
  simp [parse, this]

/-- C20, at the array of `true`, the string `x` and the object with the entries `b` and `a`
(in this order), indent 2, with conversions that fail on every number. -/
theorem restricted_round_trip_witness :
    Restricted (.array [.bool true, .string ['x'],
        .object [(['b'], some .null), (['a'], some (.array []))]])
      ∧ ∃ text,
          printValue (fun _ => [])
              (.array [.bool true, .string ['x'],
                .object [(['b'], some .null), (['a'], some (.array []))]]) 2 = some text
            ∧ parse (fun _ => none) text
              = .ok (some (.array [.bool true, .string ['x'],
                  .object [(['b'], some .null), (['a'], some (.array []))]])) :=
  have hr : Restricted (.array [.bool true, .string ['x'],
      .object [(['b'], some .null), (['a'], some (.array []))]]) := by
    simp [Restricted, RestrictedElements, RestrictedMembers, QuoteFree, JsonValue.keys]
  ⟨hr, restricted_round_trip _ _ _ 2 hr⟩

/-! ## Numbers with an exponent inside an object -/

end Json
